import Mathlib

/-!
Verification development for the Grep_CPP repository: a shallow embedding of
the regex engine in `src/grep_engine.cpp` (the variant with match positions,
lines 1-631), of the `addstate` routine of `src/Server.cpp`, and of the
command-line pipeline, together with theorems settling the frozen claims.

Conventions of the embedding:
* bytes and character codes are `Int` (the C++ `char` promoted to `int`;
  opcodes are the values 256..1000 of the `RegexOpcodes` enum);
* the shared-pointer NFA graph becomes an arena `List NFAState`; a
  `shared_ptr<NFAState>` becomes `Option Nat` (`none` = null), and state
  identity is the arena index;
* `std::map` becomes a key-sorted association list, kept sorted by the
  insertion primitives, so that structural equality of snapshots coincides
  with `std::map` equality;
* the recursion of the epsilon closure and of the parser is given explicit
  fuel; separate theorems show the fuel chosen by the wrappers is never
  exhausted, which is exactly the termination content of the source.
-/

namespace GrepSpec

/-! ### Sorted association lists: the model of `std::map` -/

/-- Lookup in a `std::map` modelled as an association list (`map::find`). -/
def mapFind {α : Type} (m : List (Int × α)) (k : Int) : Option α :=
  match m with
  | [] => none
  | (k', v) :: rest => if k' = k then some v else mapFind rest k

/-- Insert-or-assign keeping keys sorted (`std::map::operator[] = v`). -/
def mapSet {α : Type} (m : List (Int × α)) (k : Int) (v : α) : List (Int × α) :=
  match m with
  | [] => [(k, v)]
  | (k', v') :: rest =>
    if k < k' then (k, v) :: (k', v') :: rest
    else if k' = k then (k, v) :: rest
    else (k', v') :: mapSet rest k v

/-- `m[k]` of `std::map`: returns the mapped value, inserting `d` when the
key is absent, together with the possibly-extended map. -/
def mapGetRef {α : Type} (m : List (Int × α)) (k : Int) (d : α) : α × List (Int × α) :=
  match mapFind m k with
  | some v => (v, m)
  | none => (d, mapSet m k d)

/-! ### NFA data model (`struct NFAState`, opcodes, fragments) -/

/-- `enum RegexOpcodes` of grep_engine.cpp. -/
def OPCODE_SPLIT : Int := 256
def OPCODE_MATCH_ANY : Int := 257
def OPCODE_MATCH_WORD : Int := 258
def OPCODE_MATCH_DIGIT : Int := 259
def OPCODE_MATCH_CHOICE : Int := 260
def OPCODE_MATCH_ANTI_CHOICE : Int := 261
def OPCODE_MATCH_START : Int := 262
def OPCODE_MATCH_END : Int := 263
def OPCODE_BACKREF_START : Int := 300
def OPCODE_MATCHED : Int := 1000

/-- `struct NFAState`.  The two `shared_ptr` successors become optional arena
indices; `last_list_id` is declared in the C++ struct but never touched by
this variant of the engine, so it is omitted from the model. -/
structure NFAState where
  primary_transition : Option Nat := none
  alternative_transition : Option Nat := none
  character_code : Int := -1
  character_set : List Int := []
  capture_group_start : Int := -1
  capture_group_end : Int := -1
deriving DecidableEq, Repr

/-- The arena holding every allocated state; indices are state identities. -/
abbrev Graph := List NFAState

/-- A dangling output slot of a fragment: the state index together with
which of its two successor fields is unassigned (`false` = primary,
`true` = alternative). -/
abbrev Slot := Nat × Bool

/-- `struct NFAFragment`. -/
structure NFAFragment where
  start_state : Nat
  dangling_outputs : List Slot
deriving DecidableEq, Repr

/-- Write `target` into one dangling output slot (`*dangling_output = ...`). -/
def patchSlot (g : Graph) (s : Slot) (target : Nat) : Graph :=
  match g[s.1]? with
  | none => g
  | some st =>
    if s.2 then g.set s.1 { st with alternative_transition := some target }
    else g.set s.1 { st with primary_transition := some target }

/-- Patch every dangling output of a fragment. -/
def patchAll (g : Graph) (slots : List Slot) (target : Nat) : Graph :=
  slots.foldl (fun acc s => patchSlot acc s target) g

/-! ### Capture snapshots and configurations -/

/-- `struct CaptureGroupInfo`: the per-path capture snapshot. -/
structure CaptureGroupInfo where
  captured_text : List (Int × List Int) := []
  is_actively_capturing : List (Int × Bool) := []
  backreference_position : List (Int × Nat) := []
deriving DecidableEq, Repr

/-- `struct ActiveNFAState`: one simulator configuration. -/
structure ActiveNFAState where
  nfa_state : Nat
  capture_info : CaptureGroupInfo
deriving DecidableEq, Repr

abbrev ActiveStateList := List ActiveNFAState

/-- `has_matching_state`: does some configuration sit on the `Accept`
(`OPCODE_MATCHED`) state? -/
def has_matching_state (g : Graph) (active_states : ActiveStateList) : Bool :=
  active_states.any fun a =>
    match g[a.nfa_state]? with
    | some st => st.character_code == OPCODE_MATCHED
    | none => false

/-! ### Epsilon closure (`add_state_with_epsilon_closure`) -/

/-- The group-marker bookkeeping done on entering a state during closure:
a `capture_group_start` marker clears the group's text and activates it, a
`capture_group_end` marker deactivates it. -/
def closureCap (st : NFAState) (cap : CaptureGroupInfo) : CaptureGroupInfo :=
  let cap1 :=
    if st.capture_group_start ≥ 0 then
      { cap with
        captured_text := mapSet cap.captured_text st.capture_group_start []
        is_actively_capturing :=
          mapSet cap.is_actively_capturing st.capture_group_start true }
    else cap
  if st.capture_group_end ≥ 0 then
    { cap1 with
      is_actively_capturing :=
        mapSet cap1.is_actively_capturing st.capture_group_end false }
  else cap1

/-- `add_state_with_epsilon_closure`, with explicit fuel for the recursion.
`none` means the fuel ran out (shown unreachable below for the fuel used by
`closureInto`).  The `visited` set is the per-invocation
`std::set<std::shared_ptr<NFAState>>`; an arena index passes the null check of
the source exactly when it is in range, so an out-of-range index is treated
like a null pointer. -/
def add_state_with_epsilon_closure (g : Graph) :
    Nat → Option Nat → CaptureGroupInfo → ActiveStateList → List Nat →
    Option (ActiveStateList × List Nat)
  | 0, _, _, _, _ => none
  | _ + 1, none, _, acc, visited => some (acc, visited)
  | fuel + 1, some s, cap, acc, visited =>
    if s ∈ visited then some (acc, visited)
    else
      match g[s]? with
      | none => some (acc, visited)
      | some st =>
        if st.character_code = OPCODE_SPLIT then
          match add_state_with_epsilon_closure g fuel st.primary_transition
              (closureCap st cap) acc (s :: visited) with
          | none => none
          | some (acc1, vis1) =>
            add_state_with_epsilon_closure g fuel st.alternative_transition
              (closureCap st cap) acc1 vis1
        else
          some (acc ++ [⟨s, closureCap st cap⟩], s :: visited)

/-- Total wrapper: one closure call with a fresh visited set, appending the
emitted configurations to `acc`.  The fuel `g.length + 1` is proved
sufficient (`add_state_fuel_sufficient`), so the `none` branch is dead. -/
def closureInto (g : Graph) (s : Option Nat) (cap : CaptureGroupInfo)
    (acc : ActiveStateList) : ActiveStateList :=
  match add_state_with_epsilon_closure g (g.length + 1) s cap acc [] with
  | some (l, _) => l
  | none => acc

/-- `initialize_active_states`. -/
def initialize_active_states (g : Graph) (start_state : Nat) : ActiveStateList :=
  closureInto g (some start_state) {} []

/-! ### One simulation step (`process_character_step`) -/

/-- `isdigit` of the C locale on a byte. -/
def isdigitB (c : Int) : Bool := 48 ≤ c && c ≤ 57

/-- `isalnum` of the C locale on a byte. -/
def isalnumB (c : Int) : Bool :=
  (48 ≤ c && c ≤ 57) || (65 ≤ c && c ≤ 90) || (97 ≤ c && c ≤ 122)

/-- The append loop run on consumption: for every actively capturing group id
(in `std::map` key order), push the consumed byte onto its captured text
(`captured_text[group_id].push_back(input_char)`, with `operator[]`
inserting an empty string when the key is absent). -/
def appendToActive (cap : CaptureGroupInfo) (c : Int) : CaptureGroupInfo :=
  cap.is_actively_capturing.foldl
    (fun acc kv =>
      if kv.2 then
        { acc with
          captured_text :=
            mapSet acc.captured_text kv.1 ((mapFind acc.captured_text kv.1).getD [] ++ [c]) }
      else acc)
    cap

/-- The body of the loop of `process_character_step` for one configuration:
given the accumulated `next_states`, process configuration `a` on byte `c`
and return the extended `next_states`. -/
def step_one (g : Graph) (input_char : Int) (next_states : ActiveStateList)
    (a : ActiveNFAState) : ActiveStateList :=
  match g[a.nfa_state]? with
  | none => next_states
  | some st =>
    let cap := a.capture_info
    if st.character_code = OPCODE_MATCH_ANY then
      closureInto g st.primary_transition (appendToActive cap input_char) next_states
    else if st.character_code = OPCODE_MATCH_DIGIT then
      if isdigitB input_char then
        closureInto g st.primary_transition (appendToActive cap input_char) next_states
      else next_states
    else if st.character_code = OPCODE_MATCH_WORD then
      if isalnumB input_char || input_char == 95 then
        closureInto g st.primary_transition (appendToActive cap input_char) next_states
      else next_states
    else if st.character_code = OPCODE_MATCH_CHOICE then
      if input_char ∈ st.character_set then
        closureInto g st.primary_transition (appendToActive cap input_char) next_states
      else next_states
    else if st.character_code = OPCODE_MATCH_ANTI_CHOICE then
      if input_char ∈ st.character_set then next_states
      else closureInto g st.primary_transition (appendToActive cap input_char) next_states
    else if st.character_code = input_char then
      closureInto g st.primary_transition (appendToActive cap input_char) next_states
    else if st.character_code ≥ OPCODE_BACKREF_START then
      -- backreference branch of the `default:` case
      let backref_group_id := st.character_code - OPCODE_BACKREF_START
      match mapFind cap.captured_text backref_group_id with
      | none => next_states
      | some previously_captured =>
        if previously_captured = [] then next_states
        else
          -- `backreference_position[id]` (operator[] inserts 0 when absent)
          let read := mapGetRef cap.backreference_position backref_group_id 0
          let cap := { cap with backreference_position := read.2 }
          let current_position := read.1
          if h : current_position < previously_captured.length then
            if previously_captured.get ⟨current_position, h⟩ = input_char then
              let cap := appendToActive cap input_char
              -- `previously_captured` is a reference into the map: re-read it,
              -- the append above may have extended it
              let grown := (mapFind cap.captured_text backref_group_id).getD []
              if current_position + 1 = grown.length then
                let cap :=
                  { cap with
                    backreference_position := mapSet cap.backreference_position backref_group_id 0 }
                closureInto g st.primary_transition cap next_states
              else
                let cap :=
                  { cap with
                    backreference_position :=
                      mapSet cap.backreference_position backref_group_id (current_position + 1) }
                next_states ++ [⟨a.nfa_state, cap⟩]
            else next_states
          else next_states
    else next_states

/-- `process_character_step`: advance every configuration of `current_states`
over `input_char`, building the next list (the source clears `next_states`
first, so the fold starts from `[]`). -/
def process_character_step (g : Graph) (current_states : ActiveStateList)
    (input_char : Int) : ActiveStateList :=
  current_states.foldl (step_one g input_char) []

/-! ### The matcher (`match_text_with_positions`) -/

/-- `struct MatchInfo`. -/
structure MatchInfo where
  found : Bool
  start_pos : Nat
  end_pos : Nat
deriving DecidableEq, Repr

/-- The end-of-text closure: states sitting on `$` (`OPCODE_MATCH_END`)
expand along their primary successor, all others are copied unchanged. -/
def end_of_string_states (g : Graph) (cur : ActiveStateList) : ActiveStateList :=
  cur.foldl
    (fun acc a =>
      match g[a.nfa_state]? with
      | some st =>
        if st.character_code = OPCODE_MATCH_END then
          closureInto g st.primary_transition a.capture_info acc
        else acc ++ [a]
      | none => acc ++ [a])
    []

/-- The `for (character_index = 0; ...; ++character_index)` loop of
`match_text_with_positions`, recursing over the remaining input bytes.
`i` is `character_index`, `mstart` is `match_start`. -/
def matchLoop (g : Graph) (start_state : Nat) (anchored : Bool) :
    List Int → Nat → ActiveStateList → Nat → MatchInfo
  | [], i, cur, mstart =>
    if has_matching_state g (end_of_string_states g cur) then ⟨true, mstart, i⟩
    else ⟨false, 0, 0⟩
  | c :: rest, i, cur, mstart =>
    let seeded :=
      if cur.isEmpty && !anchored then (initialize_active_states g start_state, i)
      else (cur, mstart)
    let cur1 := seeded.1
    let m1 := seeded.2
    let cur2 := if cur1.isEmpty then cur1 else process_character_step g cur1 c
    if has_matching_state g cur2 then ⟨true, m1, i + 1⟩
    else if cur2.isEmpty && !anchored then
      let cur3 := initialize_active_states g start_state
      if cur3.isEmpty then matchLoop g start_state anchored rest (i + 1) cur3 i
      else
        let cur4 := process_character_step g cur3 c
        if has_matching_state g cur4 then ⟨true, i, i + 1⟩
        else matchLoop g start_state anchored rest (i + 1) cur4 i
    else matchLoop g start_state anchored rest (i + 1) cur2 m1

/-- `match_text_with_positions` (grep_engine.cpp, lines 423-489). -/
def match_text_with_positions (g : Graph) (nfa_start_state : Nat)
    (input_text : List Int) : MatchInfo :=
  let anchored :=
    match g[nfa_start_state]? with
    | some st => st.character_code == OPCODE_MATCH_START
    | none => false
  let cur0 :=
    if anchored then
      match g[nfa_start_state]? with
      | some st => closureInto g st.primary_transition {} []
      | none => []
    else initialize_active_states g nfa_start_state
  matchLoop g nfa_start_state anchored input_text 0 cur0 0

/-! ### The parser (`parse_primary_element`, `parse_regex`,
`compile_regex_to_nfa`) -/

/-- The runtime errors thrown by the parser, by message, together with a
marker for fuel exhaustion of the embedding (shown unreachable for the fuel
used by `compile_regex_to_nfa`). -/
inductive ParseErr where
  | unexpectedEndOfPattern
  | unexpectedEndAfterBackslash
  | unclosedBracketExpr
  | expectedCloseParen
  | unmatchedCloseParen
  | unmatchedCloseBracket
  | genericError
  | outOfFuel
deriving DecidableEq, Repr

/-- The parser's work state: the arena built so far and the global
`next_capture_group_id` counter. -/
structure ParserSt where
  graph : Graph
  next_capture_group_id : Int
deriving DecidableEq, Repr

/-- Byte values of the pattern characters used by the parser. -/
def chB (c : Char) : Int := (c.toNat : Int)

/-- The precedence function of `parse_regex`. -/
def precOf (c : Int) : Int :=
  if c = chB '|' then 0
  else if c = chB ']' ∨ c = chB ')' then -1
  else 1

/-- Allocate a fresh state at the end of the arena, returning its index. -/
def allocState (st : ParserSt) (s : NFAState) : Nat × ParserSt :=
  (st.graph.length, { st with graph := st.graph ++ [s] })

/-- The postfix-quantifier handling at the end of `parse_primary_element`:
apply `*`, `+` or `?` (when next in the pattern) to the fragment just
parsed, per Thompson's construction. -/
def parse_quantifier (frag : NFAFragment) (rest2 : List Int) (st2 : ParserSt) :
    NFAFragment × List Int × ParserSt :=
  match rest2 with
  | [] => (frag, rest2, st2)
  | q :: rest3 =>
    if q = chB '*' then
      let al := allocState st2 { character_code := OPCODE_SPLIT,
                                 primary_transition := some frag.start_state }
      let g' := patchAll al.2.graph frag.dangling_outputs al.1
      (⟨al.1, [(al.1, true)]⟩, rest3, { al.2 with graph := g' })
    else if q = chB '+' then
      let al := allocState st2 { character_code := OPCODE_SPLIT,
                                 primary_transition := some frag.start_state }
      let g' := patchAll al.2.graph frag.dangling_outputs al.1
      (⟨frag.start_state, [(al.1, true)]⟩, rest3, { al.2 with graph := g' })
    else if q = chB '?' then
      let al := allocState st2 { character_code := OPCODE_SPLIT,
                                 primary_transition := some frag.start_state }
      (⟨al.1, frag.dangling_outputs ++ [(al.1, true)]⟩, rest3, al.2)
    else (frag, rest2, st2)

mutual

/-- The `switch` of `parse_primary_element` on the first pattern byte `c`
(already consumed; `rest` is the remainder).  The state object the source
allocates before the `switch` is modelled per branch (in the `'('` branch
the C++ object is discarded unused). -/
def parse_primary_core :
    Nat → Int → List Int → ParserSt → Except ParseErr (NFAFragment × List Int × ParserSt)
  | 0, _, _, _ => .error .outOfFuel
  | fuel + 1, c, rest, st =>
    if c = chB '.' then
      let al := allocState st { character_code := OPCODE_MATCH_ANY }
      .ok (⟨al.1, [(al.1, false)]⟩, rest, al.2)
    else if c = chB '^' then
      let al := allocState st { character_code := OPCODE_MATCH_START }
      .ok (⟨al.1, [(al.1, false)]⟩, rest, al.2)
    else if c = chB '$' then
      let al := allocState st { character_code := OPCODE_MATCH_END }
      .ok (⟨al.1, [(al.1, false)]⟩, rest, al.2)
    else if c = chB '\\' then
      match rest with
      | [] => .error .unexpectedEndAfterBackslash
      | e :: rest2 =>
        let code :=
          if e = chB 'd' then OPCODE_MATCH_DIGIT
          else if e = chB 'w' then OPCODE_MATCH_WORD
          else if isdigitB e then OPCODE_BACKREF_START + (e - 48)
          else e
        let al := allocState st { character_code := code }
        .ok (⟨al.1, [(al.1, false)]⟩, rest2, al.2)
    else if c = chB '[' then
      let negated := rest.head? = some (chB '^')
      let body := if negated then rest.tail else rest
      let setChars := body.takeWhile (fun b => b ≠ chB ']')
      let afterSet := body.dropWhile (fun b => b ≠ chB ']')
      match afterSet with
      | [] => .error .unclosedBracketExpr
      | _ :: rest2 =>
        let code := if negated then OPCODE_MATCH_ANTI_CHOICE else OPCODE_MATCH_CHOICE
        let al := allocState st { character_code := code, character_set := setChars }
        .ok (⟨al.1, [(al.1, false)]⟩, rest2, al.2)
    else if c = chB '(' then
      let gid := st.next_capture_group_id
      let st1 := { st with next_capture_group_id := gid + 1 }
      let alS := allocState st1
        { character_code := OPCODE_SPLIT, capture_group_start := gid }
      let capture_start_state := alS.1
      match parse_primary_element fuel rest alS.2 with
      | .error e => .error e
      | .ok (firstFrag, rest2, st2) =>
        match parse_regex fuel rest2 firstFrag 0 st2 with
        | .error e => .error e
        | .ok (inner, rest3, st3) =>
          match rest3 with
          | [] => .error .expectedCloseParen
          | r :: rest4 =>
            if r = chB ')' then
              let alE := allocState st3
                { character_code := OPCODE_SPLIT, capture_group_end := gid }
              let capture_end_state := alE.1
              let g1 := patchSlot alE.2.graph (capture_start_state, false) inner.start_state
              let g2 := patchAll g1 inner.dangling_outputs capture_end_state
              .ok (⟨capture_start_state, [(capture_end_state, false)]⟩, rest4,
                    { alE.2 with graph := g2 })
            else .error .expectedCloseParen
    else
      let al := allocState st { character_code := c }
      .ok (⟨al.1, [(al.1, false)]⟩, rest, al.2)

/-- `parse_primary_element`.  Returns the parsed fragment, the remaining
pattern and the updated work state. -/
def parse_primary_element :
    Nat → List Int → ParserSt → Except ParseErr (NFAFragment × List Int × ParserSt)
  | 0, _, _ => .error .outOfFuel
  | fuel + 1, rx, st =>
    match rx with
    | [] => .error .unexpectedEndOfPattern
    | c :: rest =>
      match parse_primary_core fuel c rest st with
      | .error e => .error e
      | .ok (frag, rest2, st2) => .ok (parse_quantifier frag rest2 st2)

/-- The `while` loop of `parse_regex`: one recursive call per iteration. -/
def parse_regex :
    Nat → List Int → NFAFragment → Int → ParserSt →
    Except ParseErr (NFAFragment × List Int × ParserSt)
  | 0, _, _, _, _ => .error .outOfFuel
  | fuel + 1, rx, left_fragment, min_precedence, st =>
    match rx with
    | [] => .ok (left_fragment, [], st)
    | look :: _ =>
      if precOf look < min_precedence then .ok (left_fragment, rx, st)
      else
        let current_operator := look
        let rx1 := if current_operator = chB '|' then rx.tail else rx
        match parse_primary_element fuel rx1 st with
        | .error e => .error e
        | .ok (rf, rx2, st2) =>
          match parse_regex_inner fuel rx2 rf current_operator st2 with
          | .error e => .error e
          | .ok (right_fragment, rx3, st3) =>
            if current_operator = chB '|' then
              let al := allocState st3
                { character_code := OPCODE_SPLIT,
                  primary_transition := some left_fragment.start_state,
                  alternative_transition := some right_fragment.start_state }
              let left' : NFAFragment :=
                ⟨al.1, left_fragment.dangling_outputs ++ right_fragment.dangling_outputs⟩
              parse_regex fuel rx3 left' min_precedence al.2
            else
              let g' := patchAll st3.graph left_fragment.dangling_outputs
                          right_fragment.start_state
              let left' : NFAFragment :=
                ⟨left_fragment.start_state, right_fragment.dangling_outputs⟩
              parse_regex fuel rx3 left' min_precedence { st3 with graph := g' }

/-- The inner `while` of `parse_regex` that folds tighter-binding operators
into the right-hand fragment. -/
def parse_regex_inner :
    Nat → List Int → NFAFragment → Int → ParserSt →
    Except ParseErr (NFAFragment × List Int × ParserSt)
  | 0, _, _, _, _ => .error .outOfFuel
  | fuel + 1, rx, right_fragment, current_operator, st =>
    match rx with
    | [] => .ok (right_fragment, [], st)
    | look :: _ =>
      if precOf look > precOf current_operator then
        match parse_regex fuel rx right_fragment (precOf current_operator + 1) st with
        | .error e => .error e
        | .ok (rf', rx', st') => parse_regex_inner fuel rx' rf' current_operator st'
      else .ok (right_fragment, rx, st)

end

/-- The fuel handed to the parser by `compile_regex_to_nfa`; proved
sufficient below. -/
def compileFuel (pattern : List Int) : Nat := 4 * pattern.length + 8

/-- `compile_regex_to_nfa`.  The `Accept` state is allocated first (index 0);
an empty pattern returns it as the start state.  On success the result is the
final arena together with the start state's index. -/
def compile_regex_to_nfa (regex_string : List Int) : Except ParseErr (Graph × Nat) :=
  let g0 : Graph := [{ character_code := OPCODE_MATCHED }]
  if regex_string = [] then .ok (g0, 0)
  else
    let st0 : ParserSt := ⟨g0, 1⟩
    match parse_primary_element (compileFuel regex_string) regex_string st0 with
    | .error e => .error e
    | .ok (firstFrag, rem1, st1) =>
      match parse_regex (compileFuel regex_string) rem1 firstFrag 0 st1 with
      | .error e => .error e
      | .ok (complete_fragment, remaining, st2) =>
        match remaining with
        | [] =>
          .ok (patchAll st2.graph complete_fragment.dangling_outputs 0,
                complete_fragment.start_state)
        | r :: _ =>
          if r = chB ')' then .error .unmatchedCloseParen
          else if r = chB ']' then .error .unmatchedCloseBracket
          else .error .genericError

/-- Pattern and text bytes of a Lean string literal. -/
def strBytes (s : String) : List Int := s.toList.map (fun ch => (ch.toNat : Int))

/-! ### The `addstate` closure of `src/Server.cpp` (lines 328-341)

This variant deduplicates by writing the global `listid` into the `lastlist`
field of each visited state, so the graph is threaded through the call and
returned updated. -/

/-- `struct State` of Server.cpp. -/
structure SrvState where
  out : Option Nat := none
  out1 : Option Nat := none
  c : Int := -1
  lastlist : Int := -1
  match_set : List Int := []
  capture_ids : List Int := []
deriving DecidableEq, Repr

/-- `struct CaptureInfo` of Server.cpp. -/
structure SrvCaptureInfo where
  groups : List (List Int) := []
  active : List (Int × Int) := []
  backref_idx : Int := 0
deriving DecidableEq, Repr

abbrev SrvList := List (SrvCaptureInfo × Nat)

/-- `addstate` of Server.cpp: adds a state and its epsilon closure to the
list, marking visited states by writing `listid` into their `lastlist`
field.  Returns the updated graph together with the extended list. -/
def addstate : Nat → List SrvState → Int → Option Nat → SrvCaptureInfo → SrvList →
    List SrvState × SrvList
  | 0, g, _, _, _, l => (g, l)
  | _ + 1, g, _, none, _, l => (g, l)
  | fuel + 1, g, listid, some s, cap_info, l =>
    match g[s]? with
    | none => (g, l)
    | some st =>
      if st.lastlist = listid then (g, l)
      else
        let g1 := g.set s { st with lastlist := listid }
        if st.c = OPCODE_SPLIT then
          let r1 := addstate fuel g1 listid st.out cap_info l
          addstate fuel r1.1 listid st.out1 cap_info r1.2
        else (g1, l ++ [(cap_info, s)])

/-! ### The command-line pipeline of grep_engine.cpp (`main`,
`print_with_color`) -/

/-- `COLOR_RED_BOLD` = `"\033[1;31m"`. -/
def COLOR_RED_BOLD : List Int := [27, 91, 49, 59, 51, 49, 109]

/-- `COLOR_RESET` = `"\033[0m"`. -/
def COLOR_RESET : List Int := [27, 91, 48, 109]

/-- `print_with_color`: the bytes written to standard output for one
matching line (without the final newline). -/
def print_with_color (line : List Int) (match_info : MatchInfo) (use_color : Bool) :
    List Int :=
  if !use_color || !match_info.found then line
  else
    line.take match_info.start_pos ++
    COLOR_RED_BOLD ++
    ((line.drop match_info.start_pos).take (match_info.end_pos - match_info.start_pos)) ++
    COLOR_RESET ++
    line.drop match_info.end_pos

/-- The result of the argument-parsing loop of `main`. -/
structure ParsedArgs where
  found_extended_regex_flag : Bool := false
  use_recursive_search : Bool := false
  use_color : Bool := true
  regex_pattern_string : List Int := []
  target_file_paths : List (List Int) := []
deriving DecidableEq, Repr

/-- The `for (arg_index = 1; ...)` loop of `main`; `none` is the early
`return 1` for `-E` without a following pattern. -/
def parse_args : List (List Int) → ParsedArgs → Option ParsedArgs
  | [], acc => some acc
  | a :: rest, acc =>
    if a = strBytes "-E" then
      match rest with
      | [] => none
      | p :: rest' =>
        parse_args rest'
          { acc with found_extended_regex_flag := true, regex_pattern_string := p }
    else if a = strBytes "-r" then
      parse_args rest { acc with use_recursive_search := true }
    else if (strBytes "--color=").isPrefixOf a then
      let color_option := a.drop 8
      let uc :=
        if color_option = strBytes "always" then true
        else if color_option = strBytes "never" then false
        else if color_option = strBytes "auto" then true
        else acc.use_color
      parse_args rest { acc with use_color := uc }
    else
      parse_args rest { acc with target_file_paths := acc.target_file_paths ++ [a] }

/-- The stdin matching loop of `main`: returns the output lines and the
final `found_any_match_globally` flag. -/
def run_stdin (g : Graph) (start : Nat) (use_color : Bool)
    (input_lines : List (List Int)) : List (List Int) × Bool :=
  input_lines.foldl
    (fun acc line =>
      let match_info := match_text_with_positions g start line
      if match_info.found then
        (acc.1 ++ [print_with_color line match_info use_color], true)
      else acc)
    ([], false)

/-- The file matching loop of `main` over the already-opened files of
`files_to_search` (each given as path bytes paired with its lines; path
resolution and unopenable files are I/O, outside the embedding).  A `path:`
marker precedes each matching line exactly when more than one file is
searched. -/
def run_files (g : Graph) (start : Nat) (use_color : Bool)
    (files_to_search : List (List Int × List (List Int))) : List (List Int) × Bool :=
  let should_prefix_with_filename := 1 < files_to_search.length
  files_to_search.foldl
    (fun acc file =>
      file.2.foldl
        (fun acc2 line =>
          let match_info := match_text_with_positions g start line
          if match_info.found then
            (acc2.1 ++
              [(if should_prefix_with_filename then file.1 ++ [58] else []) ++
                print_with_color line match_info use_color],
             true)
          else acc2)
        acc)
    ([], false)

/-- `main` of grep_engine.cpp as a function from the arguments, the stdin
lines and the resolved file contents to the standard-output lines and the
exit code.  The directory traversal and path checks between argument parsing
and the file loop are I/O; `file_data` stands for the resulting
`files_to_search` with the lines each file yields. -/
def main_grep (args : List (List Int)) (stdin_lines : List (List Int))
    (file_data : List (List Int × List (List Int))) : List (List Int) × Nat :=
  match parse_args args {} with
  | none => ([], 1)
  | some pa =>
    if !pa.found_extended_regex_flag then ([], 1)
    else if pa.regex_pattern_string = [] then ([], 1)
    else
      match compile_regex_to_nfa pa.regex_pattern_string with
      | .error _ => ([], 1)
      | .ok gs =>
        if pa.target_file_paths.isEmpty && !pa.use_recursive_search then
          let r := run_stdin gs.1 gs.2 pa.use_color stdin_lines
          (r.1, if r.2 then 0 else 1)
        else
          let r := run_files gs.1 gs.2 pa.use_color file_data
          (r.1, if r.2 then 0 else 1)

/-! ### Auxiliary notions used by the theorem statements -/

/-- A pattern byte with no metacharacter meaning: the parser reaches its
`default:` branch on it, `parse_regex` treats it as concatenation, and no
quantifier applies.  Excluded are `. ^ $ \ [ ( ) ] * + ? |`. -/
def LiteralByte (c : Int) : Prop :=
  0 ≤ c ∧ c < 256 ∧
    c ∉ ([46, 94, 36, 92, 91, 40, 41, 93, 42, 43, 63, 124] : List Int)

instance (c : Int) : Decidable (LiteralByte c) := by
  unfold LiteralByte; infer_instance

/-- Forget the `lastlist` dedup mark of a Server.cpp state. -/
def eraseLastlist (st : SrvState) : SrvState := { st with lastlist := -1 }

/-- The invariant tying the arena built by the parser on an all-literal
pattern `L` after `j` consumed bytes: index `0` is `Accept`, index `i + 1`
(`i < j`) holds `Literal (L[i])` chaining to `i + 2`, the last one still
dangling. -/
def ChainInv (L : List Int) (j : Nat) (g : Graph) : Prop :=
  g.length = j + 1 ∧
  g[0]? = some { character_code := OPCODE_MATCHED } ∧
  ∀ i, i < j →
    g[i + 1]? = some { character_code := L.getD i 0,
                       primary_transition := if i + 1 < j then some (i + 2) else none }

/-- The compiled NFA of an all-literal pattern `L`: the chain invariant with
every dangling output patched to `Accept`. -/
def ChainDone (L : List Int) (g : Graph) : Prop :=
  g.length = L.length + 1 ∧
  g[0]? = some { character_code := OPCODE_MATCHED } ∧
  ∀ i, i < L.length →
    g[i + 1]? = some { character_code := L.getD i 0,
                       primary_transition := some (if i + 1 = L.length then 0 else i + 2) }

/-! ## Theorems -/

/-! ### Association-list lemmas -/

theorem mapFind_mapSet_self {α : Type} (m : List (Int × α)) (k : Int) (v : α) :
    mapFind (mapSet m k v) k = some v := by
  induction m with
  | nil => simp [mapSet, mapFind]
  | cons kv rest ih =>
    obtain ⟨k', v'⟩ := kv
    by_cases h1 : k < k'
    · simp [mapSet, h1, mapFind]
    · by_cases h2 : k' = k
      · simp [mapSet, h1, h2, mapFind]
      · simp [mapSet, h1, h2, mapFind, ih]

theorem mapFind_mapSet_ne {α : Type} (m : List (Int × α)) (k k' : Int) (v : α)
    (h : k ≠ k') : mapFind (mapSet m k v) k' = mapFind m k' := by
  induction m with
  | nil => simp [mapSet, mapFind, h]
  | cons kv rest ih =>
    obtain ⟨k0, v0⟩ := kv
    by_cases h1 : k < k0
    · simp [mapSet, h1, mapFind, h]
    · by_cases h2 : k0 = k
      · subst h2
        simp [mapSet, h1, mapFind, h]
      · simp [mapSet, h1, h2, mapFind, ih]

/-! ### Termination of the epsilon closure (claim C5) -/

theorem nodup_bounded_length (l : List Nat) (n : Nat) (hnd : l.Nodup)
    (hb : ∀ v ∈ l, v < n) : l.length ≤ n := by
  classical
  have hsub : l.toFinset ⊆ Finset.range n := by
    intro x hx
    simp only [List.mem_toFinset] at hx
    simpa using hb x hx
  have := Finset.card_le_card hsub
  rwa [List.toFinset_card_of_nodup hnd, Finset.card_range] at this

theorem add_state_visited_post (fuel : Nat) :
    ∀ (g : Graph) (s : Option Nat) cap acc visited l vis',
      add_state_with_epsilon_closure g fuel s cap acc visited = some (l, vis') →
      visited.Nodup → (∀ v ∈ visited, v < g.length) →
      vis'.Nodup ∧ (∀ v ∈ vis', v < g.length) ∧
        (∀ v ∈ visited, v ∈ vis') ∧ visited.length ≤ vis'.length := by
  induction fuel with
  | zero => intro g s cap acc visited l vis' h; simp [add_state_with_epsilon_closure] at h
  | succ fuel ih =>
    intro g s cap acc visited l vis' h hnd hb
    match s with
    | none =>
      simp [add_state_with_epsilon_closure] at h
      obtain ⟨-, rfl⟩ := h
      exact ⟨hnd, hb, fun v hv => hv, le_refl _⟩
    | some s =>
      rw [add_state_with_epsilon_closure] at h
      by_cases hmem : s ∈ visited
      · simp only [hmem, if_true, Option.some.injEq, Prod.mk.injEq] at h
        obtain ⟨-, rfl⟩ := h
        exact ⟨hnd, hb, fun v hv => hv, le_refl _⟩
      · simp only [hmem, if_false] at h
        match hg : g[s]? with
        | none =>
          rw [hg] at h
          simp only [Option.some.injEq, Prod.mk.injEq] at h
          obtain ⟨-, rfl⟩ := h
          exact ⟨hnd, hb, fun v hv => hv, le_refl _⟩
        | some st =>
          rw [hg] at h
          have hs : s < g.length := (List.getElem?_eq_some.mp hg).1
          have hnd' : (s :: visited).Nodup := List.nodup_cons.mpr ⟨hmem, hnd⟩
          have hb' : ∀ v ∈ s :: visited, v < g.length := by
            intro v hv
            rcases List.mem_cons.mp hv with h1 | h1
            · exact h1 ▸ hs
            · exact hb v h1
          by_cases hsp : st.character_code = OPCODE_SPLIT
          · simp only [hsp, if_true] at h
            match h1 : add_state_with_epsilon_closure g fuel st.primary_transition
                (closureCap st cap) acc (s :: visited) with
            | none => rw [h1] at h; simp at h
            | some r1 =>
              rw [h1] at h
              obtain ⟨n1, b1, m1, l1⟩ :=
                ih g st.primary_transition (closureCap st cap) acc (s :: visited) r1.1 r1.2
                  (by rw [h1]) hnd' hb'
              obtain ⟨n2, b2, m2, l2⟩ :=
                ih g st.alternative_transition (closureCap st cap) r1.1 r1.2 l vis' h n1 b1
              refine ⟨n2, b2, ?_, ?_⟩
              · intro v hv
                exact m2 v (m1 v (List.mem_cons_of_mem _ hv))
              · calc visited.length ≤ (s :: visited).length := by simp
                  _ ≤ r1.2.length := l1
                  _ ≤ vis'.length := l2
          · simp only [hsp, if_false, Option.some.injEq, Prod.mk.injEq] at h
            obtain ⟨-, rfl⟩ := h
            exact ⟨hnd', hb', fun v hv => List.mem_cons_of_mem _ hv, by simp⟩

theorem add_state_fuel_sufficient (fuel : Nat) :
    ∀ (g : Graph) (s : Option Nat) cap acc visited,
      visited.Nodup → (∀ v ∈ visited, v < g.length) →
      g.length + 1 ≤ fuel + visited.length →
      (add_state_with_epsilon_closure g fuel s cap acc visited).isSome := by
  induction fuel with
  | zero =>
    intro g s cap acc visited hnd hb hf
    have := nodup_bounded_length visited g.length hnd hb
    omega
  | succ fuel ih =>
    intro g s cap acc visited hnd hb hf
    match s with
    | none => simp [add_state_with_epsilon_closure]
    | some s =>
      rw [add_state_with_epsilon_closure]
      by_cases hmem : s ∈ visited
      · simp [hmem]
      · simp only [hmem, if_false]
        match hg : g[s]? with
        | none => simp
        | some st =>
          have hs : s < g.length := (List.getElem?_eq_some.mp hg).1
          have hnd' : (s :: visited).Nodup := List.nodup_cons.mpr ⟨hmem, hnd⟩
          have hb' : ∀ v ∈ s :: visited, v < g.length := by
            intro v hv
            rcases List.mem_cons.mp hv with h1 | h1
            · exact h1 ▸ hs
            · exact hb v h1
          by_cases hsp : st.character_code = OPCODE_SPLIT
          · simp only [hsp, if_true]
            have h1 := ih g st.primary_transition (closureCap st cap) acc (s :: visited)
              hnd' hb' (by simp only [List.length_cons]; omega)
            match hr1 : add_state_with_epsilon_closure g fuel st.primary_transition
                (closureCap st cap) acc (s :: visited) with
            | none => rw [hr1] at h1; simp at h1
            | some r1 =>
              obtain ⟨n1, b1, -, l1⟩ :=
                add_state_visited_post fuel g st.primary_transition (closureCap st cap)
                  acc (s :: visited) r1.1 r1.2 (by rw [hr1]) hnd' hb'
              exact ih g st.alternative_transition (closureCap st cap) r1.1 r1.2 n1 b1
                (by simp only [List.length_cons] at l1; omega)
          · simp [hsp]

/-- C5: for every NFA graph (Split cycles included), every seed state and
every capture snapshot, the epsilon-closure recursion terminates: whenever
the remaining fuel is at least the number of states not yet in the
per-invocation visited set (plus one), `add_state_with_epsilon_closure`
completes instead of exhausting its fuel, so the recursion depth is bounded
by the number of states in the graph. -/
theorem C5_closure_terminates (g : Graph) (seed : Option Nat)
    (cap : CaptureGroupInfo) (acc : ActiveStateList) (visited : List Nat)
    (fuel : Nat) (hnd : visited.Nodup) (hb : ∀ v ∈ visited, v < g.length)
    (hf : g.length + 1 ≤ fuel + visited.length) :
    (add_state_with_epsilon_closure g fuel seed cap acc visited).isSome :=
  add_state_fuel_sufficient fuel g seed cap acc visited hnd hb hf

/-- Witness for C5 at a concrete two-state graph with a Split cycle
(`a*` compiled): `Split(primary → Literal a → back, alt → Accept)`. -/
theorem C5_witness :
    (add_state_with_epsilon_closure
      [{ character_code := OPCODE_MATCHED },
       { primary_transition := some 2, character_code := 97 },
       { primary_transition := some 1, alternative_transition := some 0,
         character_code := OPCODE_SPLIT }]
      4 (some 2) {} [] []).isSome :=
  C5_closure_terminates _ (some 2) {} [] [] 4 (by decide) (by decide) (by decide)

/-! ### Stacked quantifiers (claim C9) -/

/-- C9: compiling `a**` raises no syntax error.  The parse succeeds, and the
second `*` is consumed as a new primary: the resulting arena is `Accept` (0),
`Literal 'a'` (1), the star's `Split` (2, the start state), and a
`Literal '*'` state (3) wired after the star fragment (the Split's
alternative) and into `Accept`. -/
theorem C9_stacked_quantifiers :
    compile_regex_to_nfa (strBytes "a**") =
      .ok ([{ character_code := OPCODE_MATCHED },
            { primary_transition := some 2, character_code := 97 },
            { primary_transition := some 1, alternative_transition := some 3,
              character_code := OPCODE_SPLIT },
            { primary_transition := some 0, character_code := 42 }], 2) := by
  rfl

/-! ### Missing deduplication of configurations (claim C3) -/

/-- C3 fails on the code: the `ActiveNFAState` comparison exists but is
never used to build a set, and `ActiveStateList` is a plain vector.
Evaluating the cited step on the compiled NFA of `(a|a)` over text `a`:
both literal branches feed the same `Accept` state with byte-for-byte equal
snapshots, and the resulting list contains that configuration twice, so
duplicates with equal (state identity, snapshot) keys are not discarded. -/
theorem C3_duplicates_not_discarded :
    (compile_regex_to_nfa (strBytes "(a|a)")).toOption.map
        (fun gs => process_character_step gs.1 (initialize_active_states gs.1 gs.2) 97) =
      some [⟨0, { captured_text := [(1, [97])], is_actively_capturing := [(1, false)] }⟩,
            ⟨0, { captured_text := [(1, [97])], is_actively_capturing := [(1, false)] }⟩] := by
  rfl

/-! ### Counterexamples to claims C1, C2 and C4 -/

/-- C1 as stated is false: for the literal pattern `aab`, (i) the text
`aaab` contains `aab` as a substring, yet the match fails — after the first
seed dies at index 2, the restart-on-empty policy reseeds at 2, skipping the
occurrence that starts at 1; and (ii) on `aaabaab` the match succeeds with
span (4,7) although the first occurrence of `aab` starts at index 1, so the
reported span is not the leftmost occurrence. -/
theorem C1_counterexample :
    ((compile_regex_to_nfa (strBytes "aab")).toOption.map
        (fun gs => match_text_with_positions gs.1 gs.2 (strBytes "aaab")) =
      some ⟨false, 0, 0⟩) ∧
    (strBytes "aab").IsInfix (strBytes "aaab") ∧
    ((compile_regex_to_nfa (strBytes "aab")).toOption.map
        (fun gs => match_text_with_positions gs.1 gs.2 (strBytes "aaabaab")) =
      some ⟨true, 4, 7⟩) ∧
    ((strBytes "aaabaab").drop 1).take 3 = strBytes "aab" := by
  refine ⟨rfl, by decide, rfl, by decide⟩

/-- C2 as stated is false when the referenced group is itself still actively
capturing.  Concrete input: graph `[Accept, Backref(1) → Accept]`, and a
configuration on the backref state with `captured_text[1] = "a"`, group 1
active, backref position 0, input byte `'a'`.  Reading position 0 of the
one-byte captured text, `p + 1` equals its length, so the claim prescribes
completion: position reset to 0 and the closure of the primary successor
(`Accept`, state 0) emitted.  The code instead appends the byte to the still
active group first and compares against the grown length 2, so it re-emits
the backref state with position 1, and no `Accept` configuration appears. -/
theorem C2_counterexample :
    (process_character_step [{ character_code := OPCODE_MATCHED },
        { primary_transition := some 0, character_code := 301 }]
      [⟨1, { captured_text := [(1, [97])], is_actively_capturing := [(1, true)] }⟩] 97 =
      [⟨1, { captured_text := [(1, [97, 97])], is_actively_capturing := [(1, true)],
             backreference_position := [(1, 1)] }⟩]) ∧
    (mapFind (CaptureGroupInfo.captured_text
        { captured_text := [(1, [97])], is_actively_capturing := [(1, true)] }) 1 =
      some [97]) ∧
    ((mapGetRef (CaptureGroupInfo.backreference_position
        { captured_text := [(1, [97])], is_actively_capturing := [(1, true)] }) 1 0).1 = 0) ∧
    (∀ x ∈ process_character_step [{ character_code := OPCODE_MATCHED },
        { primary_transition := some 0, character_code := 301 }]
      [⟨1, { captured_text := [(1, [97])], is_actively_capturing := [(1, true)] }⟩] 97,
      x.nfa_state = 1) := by
  refine ⟨rfl, rfl, rfl, by decide⟩

/-- C4 as stated is false: compiling the empty pattern does return `Accept`
directly, but matching the nonempty text `x` against it fails with
`(false, 0, 0)` instead of succeeding with span `(0, 0)` — the `Accept`
configuration is destroyed by the step before the first match check, and
every reseed dies the same way. -/
theorem C4_counterexample :
    compile_regex_to_nfa [] = .ok ([{ character_code := OPCODE_MATCHED }], 0) ∧
    (match_text_with_positions [{ character_code := OPCODE_MATCHED }] 0 (strBytes "x") =
      ⟨false, 0, 0⟩) := by
  refine ⟨rfl, rfl⟩

/-! ### Well-formed spans (claim C10) -/

theorem matchLoop_span (g : Graph) (start anch) :
    ∀ (rest : List Int) (i : Nat) (cur : ActiveStateList) (mstart : Nat),
      mstart ≤ i →
      matchLoop g start anch rest i cur mstart = ⟨false, 0, 0⟩ ∨
      ∃ s e, matchLoop g start anch rest i cur mstart = ⟨true, s, e⟩ ∧
        s ≤ e ∧ e ≤ i + rest.length := by
  intro rest
  induction rest with
  | nil =>
    intro i cur mstart hm
    by_cases h : has_matching_state g (end_of_string_states g cur) = true
    · right
      exact ⟨mstart, i, by simp [matchLoop, h], hm, by simp⟩
    · left
      simp [matchLoop, h]
  | cons c rest ih =>
    intro i cur mstart hm
    rw [matchLoop]
    set seeded :=
      if cur.isEmpty && !anch then (initialize_active_states g start, i)
      else (cur, mstart) with hseed
    have hm1 : seeded.2 ≤ i := by
      rw [hseed]
      split
      · exact le_refl i
      · exact hm
    set cur2 := if seeded.1.isEmpty then seeded.1 else process_character_step g seeded.1 c
      with hcur2
    by_cases h1 : has_matching_state g cur2 = true
    · right
      refine ⟨seeded.2, i + 1, by simp [h1], by omega, by simp only [List.length_cons]; omega⟩
    · simp only [h1, if_false, Bool.false_eq_true]
      by_cases h2 : (cur2.isEmpty && !anch) = true
      · simp only [h2, if_true]
        set cur3 := initialize_active_states g start with hcur3
        by_cases h3 : cur3.isEmpty = true
        · simp only [h3, if_true]
          rcases ih (i + 1) cur3 i (by omega) with h4 | ⟨s, e, h4, h5, h6⟩
          · left; exact h4
          · right; exact ⟨s, e, h4, h5, by simp only [List.length_cons]; omega⟩
        · simp only [h3, if_false, Bool.false_eq_true]
          by_cases h4 : has_matching_state g (process_character_step g cur3 c) = true
          · right
            refine ⟨i, i + 1, by simp [h4], by omega, by simp only [List.length_cons]; omega⟩
          · simp only [h4, if_false, Bool.false_eq_true]
            rcases ih (i + 1) (process_character_step g cur3 c) i (by omega) with
              h5 | ⟨s, e, h5, h6, h7⟩
            · left; exact h5
            · right; exact ⟨s, e, h5, h6, by simp only [List.length_cons]; omega⟩
      · simp only [h2, if_false, Bool.false_eq_true]
        rcases ih (i + 1) cur2 seeded.2 (by omega) with h3 | ⟨s, e, h3, h4, h5⟩
        · left; exact h3
        · right; exact ⟨s, e, h3, h4, by simp only [List.length_cons]; omega⟩

/-- C10: for every NFA graph, start state and input text, the `MatchInfo`
returned by `match_text_with_positions` is well formed: when `found` is
false the span is `(0, 0)`, and when `found` is true the span satisfies
`start_pos ≤ end_pos ≤ length of the text`, so it always lies within the
line. -/
theorem C10_span_well_formed (g : Graph) (start : Nat) (T : List Int) :
    ((match_text_with_positions g start T).found = false →
      match_text_with_positions g start T = ⟨false, 0, 0⟩) ∧
    ((match_text_with_positions g start T).found = true →
      (match_text_with_positions g start T).start_pos ≤
          (match_text_with_positions g start T).end_pos ∧
        (match_text_with_positions g start T).end_pos ≤ T.length) := by
  have h := matchLoop_span g start
    (match g[start]? with
     | some st => st.character_code == OPCODE_MATCH_START
     | none => false)
    T 0
    (if (match g[start]? with
         | some st => st.character_code == OPCODE_MATCH_START
         | none => false) then
       match g[start]? with
       | some st => closureInto g st.primary_transition {} []
       | none => []
     else initialize_active_states g start)
    0 (le_refl 0)
  rw [match_text_with_positions]
  rcases h with h | ⟨s, e, h, h1, h2⟩
  · rw [h]
    exact ⟨fun _ => rfl, fun hc => by simp at hc⟩
  · rw [h]
    exact ⟨fun hc => by simp at hc, fun _ => ⟨h1, by simpa using h2⟩⟩

/-! ### Graph mutation during simulation (claim C6) -/

theorem list_set_self {α : Type} :
    ∀ (l : List α) (n : Nat) (a : α), l[n]? = some a → l.set n a = l := by
  intro l
  induction l with
  | nil => intro n a h; simp at h
  | cons x xs ih =>
    intro n a h
    cases n with
    | zero => simp at h; simp [h]
    | succ n => simp at h; simp [ih n a h]

/-- C6 fails on the code: `addstate` of Server.cpp writes the global
`listid` into the `lastlist` field of every state it visits.  On the
one-state graph `[Literal a]` (with `lastlist = -1`), one `addstate` call
with `listid = 5` changes the graph. -/
theorem C6_counterexample :
    (addstate 2 [{ c := 97 }] 5 (some 0) {} []).1 = [{ c := 97, lastlist := 5 }] ∧
    (addstate 2 [{ c := 97 }] 5 (some 0) {} []).1 ≠ [{ c := 97 }] := by
  refine ⟨rfl, by decide⟩

/-- C6 corrected: `addstate` of Server.cpp modifies nothing in the graph
except the `lastlist` dedup marks — erasing `lastlist` from every state of
the returned graph gives back the original graph, for every fuel, seed,
list id, snapshot and accumulated list.  (The grep_engine.cpp variant keeps
its visited set outside the graph and, in this embedding, returns no graph
at all.) -/
theorem C6_amended (fuel : Nat) :
    ∀ (g : List SrvState) (listid : Int) (s : Option Nat) (cap_info : SrvCaptureInfo)
      (l : SrvList),
      ((addstate fuel g listid s cap_info l).1).map eraseLastlist = g.map eraseLastlist := by
  induction fuel with
  | zero => intro g listid s cap_info l; rfl
  | succ fuel ih =>
    intro g listid s cap_info l
    match s with
    | none => rfl
    | some s =>
      rw [addstate]
      match hg : g[s]? with
      | none => simp
      | some st =>
        simp only
        by_cases hl : st.lastlist = listid
        · simp [hl]
        · simp only [hl, if_false]
          have hset : (g.set s { st with lastlist := listid }).map eraseLastlist =
              g.map eraseLastlist := by
            rw [List.map_set]
            have : eraseLastlist { st with lastlist := listid } = eraseLastlist st := rfl
            rw [this]
            exact list_set_self _ s _ (by rw [List.getElem?_map, hg]; rfl)
          by_cases hsp : st.c = OPCODE_SPLIT
          · rw [if_pos hsp]
            rw [ih, ih, hset]
          · rw [if_neg hsp]
            exact hset

/-! ### The empty pattern (claim C4, amended) -/

theorem accept_step_one (c : Int) (hc : c < 256) (next : ActiveStateList) :
    step_one [{ character_code := OPCODE_MATCHED }] c next ⟨0, {}⟩ = next := by
  have hne : ¬ ((1000 : Int) = c) := by omega
  simp [step_one, OPCODE_MATCHED, OPCODE_MATCH_ANY, OPCODE_MATCH_WORD,
    OPCODE_MATCH_DIGIT, OPCODE_MATCH_CHOICE, OPCODE_MATCH_ANTI_CHOICE,
    OPCODE_BACKREF_START, hne, mapFind]

theorem accept_process (c : Int) (hc : c < 256) :
    process_character_step [{ character_code := OPCODE_MATCHED }] [⟨0, {}⟩] c = [] := by
  simp [process_character_step, accept_step_one c hc]

theorem accept_loop :
    ∀ (rest : List Int) (i m : Nat) (cur : ActiveStateList),
      (∀ c ∈ rest, c < 256) →
      (cur = [] ∨ cur = [⟨0, ({} : CaptureGroupInfo)⟩]) →
      matchLoop [{ character_code := OPCODE_MATCHED }] 0 false rest i cur m =
        if rest = [] then (if cur = [] then ⟨false, 0, 0⟩ else ⟨true, m, i⟩)
        else ⟨false, 0, 0⟩ := by
  intro rest
  induction rest with
  | nil =>
    intro i m cur _ hcur
    rcases hcur with rfl | rfl
    · simp [matchLoop, end_of_string_states, has_matching_state]
    · simp [matchLoop, end_of_string_states, has_matching_state, OPCODE_MATCHED,
        OPCODE_MATCH_END]
  | cons c rest ih =>
    intro i m cur hb hcur
    have hc : c < 256 := hb c (List.mem_cons_self c rest)
    have hb' : ∀ x ∈ rest, x < 256 := fun x hx => hb x (List.mem_cons_of_mem _ hx)
    have hinit : initialize_active_states [{ character_code := OPCODE_MATCHED }] 0 =
        [⟨0, {}⟩] := rfl
    rw [matchLoop]
    rcases hcur with rfl | rfl
    · simp only [List.isEmpty_nil, Bool.not_false, Bool.and_self, if_true, hinit,
        List.isEmpty_cons, Bool.false_and, Bool.false_eq_true, if_false,
        accept_process c hc]
      simp only [has_matching_state, List.any_nil, Bool.false_eq_true, if_false,
        List.isEmpty_nil, Bool.not_false, Bool.and_self, if_true, hinit,
        List.isEmpty_cons, accept_process c hc]
      rw [ih (i + 1) i [] hb' (Or.inl rfl)]
      simp
    · simp only [List.isEmpty_cons, Bool.false_and, Bool.false_eq_true, if_false,
        accept_process c hc]
      simp only [has_matching_state, List.any_nil, Bool.false_eq_true, if_false,
        List.isEmpty_nil, Bool.not_false, Bool.and_self, if_true, hinit,
        accept_process c hc]
      rw [ih (i + 1) i [] hb' (Or.inl rfl)]
      simp

/-- C4 corrected: compiling the empty pattern does yield `Accept` directly as
the start state, but matching against this NFA succeeds (with span `(0, 0)`)
only for the empty text; for every nonempty text of bytes the match fails
with `(false, 0, 0)`, because the `Accept` configuration cannot consume a
byte and the match check of this variant only runs after a step. -/
theorem C4_amended (T : List Int) (hT : ∀ c ∈ T, c < 256) :
    compile_regex_to_nfa [] = .ok ([{ character_code := OPCODE_MATCHED }], 0) ∧
    match_text_with_positions [{ character_code := OPCODE_MATCHED }] 0 T =
      (if T = [] then ⟨true, 0, 0⟩ else ⟨false, 0, 0⟩) := by
  refine ⟨rfl, ?_⟩
  have h0 : match_text_with_positions [{ character_code := OPCODE_MATCHED }] 0 T =
      matchLoop [{ character_code := OPCODE_MATCHED }] 0 false T 0 [⟨0, {}⟩] 0 := rfl
  rw [h0, accept_loop T 0 0 [⟨0, {}⟩] hT (Or.inr rfl)]
  cases T <;> simp

/-- Witness for C4's amended theorem at the nonempty text `x`. -/
theorem C4_witness :
    compile_regex_to_nfa [] = .ok ([{ character_code := OPCODE_MATCHED }], 0) ∧
    match_text_with_positions [{ character_code := OPCODE_MATCHED }] 0 (strBytes "x") =
      (if strBytes "x" = [] then ⟨true, 0, 0⟩ else ⟨false, 0, 0⟩) :=
  C4_amended (strBytes "x") (by decide)

/-! ### The command-line contract (claim C8) -/

theorem run_stdin_go (g : Graph) (start : Nat) (uc : Bool) (lines : List (List Int)) :
    ∀ acc : List (List Int) × Bool,
    List.foldl (fun acc line =>
      let match_info := match_text_with_positions g start line
      if match_info.found then (acc.1 ++ [print_with_color line match_info uc], true)
      else acc)
      acc lines =
    (acc.1 ++ (lines.filter fun l => (match_text_with_positions g start l).found).map
        (fun l => print_with_color l (match_text_with_positions g start l) uc),
     acc.2 || lines.any fun l => (match_text_with_positions g start l).found) := by
  induction lines with
  | nil => intro acc; simp
  | cons l rest ih =>
    intro acc
    simp only [List.foldl_cons]
    by_cases h : (match_text_with_positions g start l).found = true
    · rw [ih]
      simp [h]
    · rw [ih]
      simp only [Bool.not_eq_true] at h
      simp [h]

theorem run_stdin_spec (g : Graph) (start : Nat) (uc : Bool) (lines : List (List Int)) :
    run_stdin g start uc lines =
      ((lines.filter fun l => (match_text_with_positions g start l).found).map
          (fun l => print_with_color l (match_text_with_positions g start l) uc),
       lines.any fun l => (match_text_with_positions g start l).found) := by
  rw [run_stdin, run_stdin_go]
  simp

theorem run_files_go_inner (g : Graph) (start : Nat) (uc : Bool)
    (n : Nat) (p : List Int) (lines : List (List Int)) :
    ∀ acc : List (List Int) × Bool,
    List.foldl (fun acc2 line =>
      let match_info := match_text_with_positions g start line
      if match_info.found then
        (acc2.1 ++ [(if 1 < n then p ++ [58] else []) ++ print_with_color line match_info uc],
         true)
      else acc2) acc lines =
    (acc.1 ++ (lines.filter fun l => (match_text_with_positions g start l).found).map
        (fun l => (if 1 < n then p ++ [58] else []) ++
          print_with_color l (match_text_with_positions g start l) uc),
     acc.2 || lines.any fun l => (match_text_with_positions g start l).found) := by
  induction lines with
  | nil => intro acc; simp
  | cons l rest ih =>
    intro acc
    simp only [List.foldl_cons]
    by_cases h : (match_text_with_positions g start l).found = true
    · rw [ih]; simp [h]
    · rw [ih]
      simp only [Bool.not_eq_true] at h
      simp [h]

theorem run_files_go (g : Graph) (start : Nat) (uc : Bool) (n : Nat) :
    ∀ (files : List (List Int × List (List Int))) (acc : List (List Int) × Bool),
    List.foldl (fun acc file =>
      file.2.foldl (fun acc2 line =>
        let match_info := match_text_with_positions g start line
        if match_info.found then
          (acc2.1 ++
            [(if 1 < n then file.1 ++ [58] else []) ++ print_with_color line match_info uc],
           true)
        else acc2) acc) acc files =
    (acc.1 ++ files.flatMap (fun file =>
        (file.2.filter fun l => (match_text_with_positions g start l).found).map
          (fun l => (if 1 < n then file.1 ++ [58] else []) ++
            print_with_color l (match_text_with_positions g start l) uc)),
     acc.2 || files.any fun file =>
       file.2.any fun l => (match_text_with_positions g start l).found) := by
  intro files
  induction files with
  | nil => intro acc; simp
  | cons f rest ih =>
    intro acc
    simp only [List.foldl_cons]
    rw [run_files_go_inner, ih]
    simp [Bool.or_assoc]

theorem run_files_spec (g : Graph) (start : Nat) (uc : Bool)
    (files : List (List Int × List (List Int))) :
    run_files g start uc files =
      (files.flatMap (fun file =>
        (file.2.filter fun l => (match_text_with_positions g start l).found).map
          (fun l => (if 1 < files.length then file.1 ++ [58] else []) ++
            print_with_color l (match_text_with_positions g start l) uc)),
       files.any fun file =>
         file.2.any fun l => (match_text_with_positions g start l).found) := by
  rw [run_files, run_files_go g start uc files.length files ([], false)]
  simp

theorem parse_args_color_never (rest : List (List Int)) (acc : ParsedArgs) :
    parse_args (strBytes "--color=never" :: rest) acc =
      parse_args rest { acc with use_color := false } := by
  conv_lhs => rw [parse_args.eq_def]
  simp only []
  rw [if_neg (by decide), if_neg (by decide), if_pos (by decide)]
  rw [if_neg (by decide), if_pos (by decide)]

theorem print_no_color (line : List Int) (mi : MatchInfo) :
    print_with_color line mi false = line := rfl

theorem main_grep_none (args stdin : List (List Int))
    (fd : List (List Int × List (List Int)))
    (hp : parse_args args {} = none) : main_grep args stdin fd = ([], 1) := by
  rw [main_grep, hp]

theorem main_grep_flag (args stdin : List (List Int))
    (fd : List (List Int × List (List Int))) (pa : ParsedArgs)
    (hp : parse_args args {} = some pa)
    (h : pa.found_extended_regex_flag = false ∨ pa.regex_pattern_string = []) :
    main_grep args stdin fd = ([], 1) := by
  rw [main_grep, hp]
  rcases h with h | h
  · simp [h]
  · by_cases h2 : pa.found_extended_regex_flag = true
    · simp [h2, h]
    · simp only [Bool.not_eq_true] at h2
      simp [h2]

theorem main_grep_err (args stdin : List (List Int))
    (fd : List (List Int × List (List Int))) (pa : ParsedArgs) (e : ParseErr)
    (hp : parse_args args {} = some pa)
    (hc : compile_regex_to_nfa pa.regex_pattern_string = .error e) :
    main_grep args stdin fd = ([], 1) := by
  rw [main_grep, hp]
  by_cases h1 : pa.found_extended_regex_flag = true
  · by_cases h2 : pa.regex_pattern_string = []
    · simp [h1, h2]
    · simp [h1, h2, hc]
  · simp only [Bool.not_eq_true] at h1
    simp [h1]

theorem main_grep_run (args stdin : List (List Int))
    (fd : List (List Int × List (List Int))) (pa : ParsedArgs)
    (gs : Graph × Nat)
    (hp : parse_args args {} = some pa)
    (hf : pa.found_extended_regex_flag = true)
    (hne : pa.regex_pattern_string ≠ [])
    (hc : compile_regex_to_nfa pa.regex_pattern_string = .ok gs) :
    main_grep args stdin fd =
      (if pa.target_file_paths.isEmpty && !pa.use_recursive_search then
        ((run_stdin gs.1 gs.2 pa.use_color stdin).1,
         if (run_stdin gs.1 gs.2 pa.use_color stdin).2 then 0 else 1)
       else
        ((run_files gs.1 gs.2 pa.use_color fd).1,
         if (run_files gs.1 gs.2 pa.use_color fd).2 then 0 else 1)) := by
  rw [main_grep, hp]
  simp only [hf, Bool.not_true, Bool.false_eq_true, if_false, if_neg hne, hc]

/-- C8: the command-line contract of `main`.  In order of the conjuncts:
the output of the file loop carries a `path:` marker on each matching line
exactly when more than one file is searched, and its match flag is set
exactly when some line of some file matches; the stdin loop prints each
matching line (unprefixed) and sets the flag exactly when some line matches
— the exit code being 0 when the flag is set and 1 otherwise;
`print_with_color` with color disabled emits the line without any escape
codes; `--color=never` turns color off in the parsed arguments; an argument
error (`-E` without pattern, missing `-E`, empty pattern) yields no output
and exit code 1; a pattern error likewise; and with a valid pattern the
program exits 0 if and only if at least one input line matched. -/
theorem C8_cli_contract :
    (∀ (g : Graph) (start : Nat) (uc : Bool) (files : List (List Int × List (List Int))),
      run_files g start uc files =
        (files.flatMap (fun file =>
          (file.2.filter fun l => (match_text_with_positions g start l).found).map
            (fun l => (if 1 < files.length then file.1 ++ [58] else []) ++
              print_with_color l (match_text_with_positions g start l) uc)),
         files.any fun file =>
           file.2.any fun l => (match_text_with_positions g start l).found)) ∧
    (∀ (g : Graph) (start : Nat) (uc : Bool) (lines : List (List Int)),
      run_stdin g start uc lines =
        ((lines.filter fun l => (match_text_with_positions g start l).found).map
            (fun l => print_with_color l (match_text_with_positions g start l) uc),
         lines.any fun l => (match_text_with_positions g start l).found)) ∧
    (∀ (line : List Int) (mi : MatchInfo), print_with_color line mi false = line) ∧
    (∀ (rest : List (List Int)) (acc : ParsedArgs),
      parse_args (strBytes "--color=never" :: rest) acc =
        parse_args rest { acc with use_color := false }) ∧
    (∀ args stdin fd, parse_args args {} = none → main_grep args stdin fd = ([], 1)) ∧
    (∀ args stdin fd pa, parse_args args {} = some pa →
      (pa.found_extended_regex_flag = false ∨ pa.regex_pattern_string = []) →
      main_grep args stdin fd = ([], 1)) ∧
    (∀ args stdin fd pa e, parse_args args {} = some pa →
      compile_regex_to_nfa pa.regex_pattern_string = .error e →
      main_grep args stdin fd = ([], 1)) ∧
    (∀ args stdin fd pa gs, parse_args args {} = some pa →
      pa.found_extended_regex_flag = true → pa.regex_pattern_string ≠ [] →
      compile_regex_to_nfa pa.regex_pattern_string = .ok gs →
      ((main_grep args stdin fd).2 = 0 ↔
        (if pa.target_file_paths.isEmpty && !pa.use_recursive_search then
          stdin.any fun l => (match_text_with_positions gs.1 gs.2 l).found
         else fd.any fun f =>
           f.2.any fun l => (match_text_with_positions gs.1 gs.2 l).found) = true)) := by
  refine ⟨run_files_spec, run_stdin_spec, print_no_color, parse_args_color_never,
    main_grep_none, main_grep_flag, main_grep_err, ?_⟩
  intro args stdin fd pa gs hp hf hne hc
  rw [main_grep_run args stdin fd pa gs hp hf hne hc]
  by_cases hmode : (pa.target_file_paths.isEmpty && !pa.use_recursive_search) = true
  · rw [if_pos hmode, if_pos hmode, run_stdin_spec]
    cases h : stdin.any fun l => (match_text_with_positions gs.1 gs.2 l).found <;> simp [h]
  · rw [if_neg hmode, if_neg hmode, run_files_spec]
    cases h : fd.any fun f =>
        f.2.any fun l => (match_text_with_positions gs.1 gs.2 l).found <;> simp [h]

/-- Witness for C8: `-E a` over the single stdin line `xay` exits 0. -/
theorem C8_witness :
    (main_grep [strBytes "-E", strBytes "a"] [strBytes "xay"] []).2 = 0 :=
  (C8_cli_contract.2.2.2.2.2.2.2 [strBytes "-E", strBytes "a"] [strBytes "xay"] []
    { found_extended_regex_flag := true, regex_pattern_string := strBytes "a" }
    ([{ character_code := OPCODE_MATCHED },
      { primary_transition := some 0, character_code := 97 }], 1)
    (by decide) rfl (by decide) rfl).mpr (by decide)

/-! ### The backreference step (claim C2, amended) -/

theorem mapFind_mem {α : Type} :
    ∀ (l : List (Int × α)) (k : Int) (v : α), (l.map Prod.fst).Nodup →
      ((k, v) ∈ l ↔ mapFind l k = some v) := by
  intro l
  induction l with
  | nil => intro k v _; simp [mapFind]
  | cons kv rest ih =>
    intro k v hnd
    obtain ⟨k0, v0⟩ := kv
    simp only [List.map_cons, List.nodup_cons] at hnd
    rw [mapFind]
    by_cases hk : k0 = k
    · subst hk
      simp only [if_pos rfl]
      constructor
      · intro h
        rcases List.mem_cons.mp h with h | h
        · simp only [Prod.mk.injEq] at h
          simp [h.2]
        · exact absurd (List.mem_map_of_mem Prod.fst h) hnd.1
      · intro h
        simp only [if_pos trivial, Option.some.injEq] at h
        subst h
        exact List.mem_cons_self _ _
    · simp only [if_neg hk]
      rw [← ih k v hnd.2]
      constructor
      · intro h
        rcases List.mem_cons.mp h with h | h
        · simp only [Prod.mk.injEq] at h
          exact absurd h.1.symm hk
        · exact h
      · intro h
        exact List.mem_cons_of_mem _ h


theorem appendToActive_go (c : Int) (l : List (Int × Bool)) :
    ∀ (cap : CaptureGroupInfo) (ct : List (Int × List Int)),
      List.foldl
        (fun acc kv =>
          if kv.2 then
            { acc with
              captured_text :=
                mapSet acc.captured_text kv.1 ((mapFind acc.captured_text kv.1).getD [] ++ [c]) }
          else acc)
        { cap with captured_text := ct } l =
      { cap with
        captured_text :=
          List.foldl
            (fun acc kv =>
              if kv.2 then mapSet acc kv.1 ((mapFind acc kv.1).getD [] ++ [c]) else acc)
            ct l } := by
  induction l with
  | nil => intro cap ct; rfl
  | cons kv rest ih =>
    intro cap ct
    simp only [List.foldl_cons]
    by_cases h : kv.2 = true
    · simp only [h, if_true]
      exact ih cap _
    · simp only [Bool.not_eq_true] at h
      simp only [h, Bool.false_eq_true, if_false]
      exact ih cap ct

theorem appendToActive_eq (cap : CaptureGroupInfo) (c : Int) :
    appendToActive cap c =
      { cap with
        captured_text :=
          List.foldl
            (fun acc kv =>
              if kv.2 then mapSet acc kv.1 ((mapFind acc kv.1).getD [] ++ [c]) else acc)
            cap.captured_text cap.is_actively_capturing } := by
  rw [appendToActive]
  exact appendToActive_go c cap.is_actively_capturing cap cap.captured_text

theorem ctFold_find (c : Int) :
    ∀ (l : List (Int × Bool)) (ct : List (Int × List Int)) (N : Int) (tl : List Int),
      (l.map Prod.fst).Nodup → mapFind ct N = some tl →
      mapFind
        (List.foldl
          (fun acc kv =>
            if kv.2 then mapSet acc kv.1 ((mapFind acc kv.1).getD [] ++ [c]) else acc)
          ct l) N =
        some (if (N, true) ∈ l then tl ++ [c] else tl) := by
  intro l
  induction l with
  | nil => intro ct N tl _ h; simpa using h
  | cons kv rest ih =>
    intro ct N tl hnd h
    obtain ⟨k, act⟩ := kv
    simp only [List.map_cons, List.nodup_cons] at hnd
    simp only [List.foldl_cons]
    cases act with
    | true =>
      rw [if_pos rfl]
      by_cases hk : k = N
      · subst hk
        rw [ih _ k (tl ++ [c]) hnd.2 (by rw [mapFind_mapSet_self, h]; rfl)]
        have hmem : ¬ ((k, true) ∈ rest) := by
          intro hc
          exact hnd.1 (List.mem_map_of_mem Prod.fst hc)
        simp [hmem]
      · rw [ih _ N tl hnd.2 (by rw [mapFind_mapSet_ne _ _ _ _ hk]; exact h)]
        have hiff : ((N, true) ∈ (k, true) :: rest) ↔ ((N, true) ∈ rest) := by
          simp only [List.mem_cons, Prod.mk.injEq]
          constructor
          · intro hc
            rcases hc with ⟨h1, -⟩ | hc
            · exact absurd h1.symm hk
            · exact hc
          · intro hc; exact Or.inr hc
        simp only [hiff]
    | false =>
      rw [if_neg Bool.false_ne_true]
      rw [ih ct N tl hnd.2 h]
      have hiff : ((N, true) ∈ (k, false) :: rest) ↔ ((N, true) ∈ rest) := by
        simp only [List.mem_cons, Prod.mk.injEq]
        constructor
        · intro hc
          rcases hc with ⟨-, h2⟩ | hc
          · exact absurd h2.symm (by simp)
          · exact hc
        · intro hc; exact Or.inr hc
      simp only [hiff]


theorem step_one_backref_core (g : Graph) (b : Int) (next : ActiveStateList) (s : Nat)
    (st : NFAState) (cap : CaptureGroupInfo) (N : Int)
    (hst : g[s]? = some st)
    (hcode : st.character_code = OPCODE_BACKREF_START + N)
    (hN : 0 ≤ N) (hbb : b < 256) :
    step_one g b next ⟨s, cap⟩ =
      (match mapFind cap.captured_text N with
       | none => next
       | some previously_captured =>
         if previously_captured = [] then next
         else
           let read := mapGetRef cap.backreference_position N 0
           let cap1 : CaptureGroupInfo := { cap with backreference_position := read.2 }
           if h : read.1 < previously_captured.length then
             if previously_captured.get ⟨read.1, h⟩ = b then
               let cap2 := appendToActive cap1 b
               let grown := (mapFind cap2.captured_text N).getD []
               if read.1 + 1 = grown.length then
                 closureInto g st.primary_transition
                   { cap2 with
                     backreference_position := mapSet cap2.backreference_position N 0 }
                   next
               else
                 next ++ [⟨s, { cap2 with
                   backreference_position :=
                     mapSet cap2.backreference_position N (read.1 + 1) }⟩]
             else next
           else next) := by
  have h257 : ¬ st.character_code = OPCODE_MATCH_ANY := by
    rw [hcode]; simp only [OPCODE_MATCH_ANY, OPCODE_BACKREF_START]; omega
  have h259 : ¬ st.character_code = OPCODE_MATCH_DIGIT := by
    rw [hcode]; simp only [OPCODE_MATCH_DIGIT, OPCODE_BACKREF_START]; omega
  have h258 : ¬ st.character_code = OPCODE_MATCH_WORD := by
    rw [hcode]; simp only [OPCODE_MATCH_WORD, OPCODE_BACKREF_START]; omega
  have h260 : ¬ st.character_code = OPCODE_MATCH_CHOICE := by
    rw [hcode]; simp only [OPCODE_MATCH_CHOICE, OPCODE_BACKREF_START]; omega
  have h261 : ¬ st.character_code = OPCODE_MATCH_ANTI_CHOICE := by
    rw [hcode]; simp only [OPCODE_MATCH_ANTI_CHOICE, OPCODE_BACKREF_START]; omega
  have hlit : ¬ st.character_code = b := by
    rw [hcode]; simp only [OPCODE_BACKREF_START]; omega
  have hge : st.character_code ≥ OPCODE_BACKREF_START := by
    rw [hcode]; simp only [OPCODE_BACKREF_START]; omega
  have hbid : st.character_code - OPCODE_BACKREF_START = N := by
    rw [hcode]; ring
  rw [step_one]
  rw [hst]
  simp only [if_neg h257, if_neg h259, if_neg h258, if_neg h260, if_neg h261,
    if_neg hlit, if_pos hge, hbid]


/-- C2 corrected: stepping a configuration whose state is `Backref(N)` on
byte `b`.  If group `N` was never opened or its captured text is empty the
path dies (contributes nothing to the next set).  If the captured byte at
the current backref position mismatches (or the position is out of range)
the path dies.  If it matches, `b` is first appended to the captured text of
every currently active group, and completion is then judged against the
captured text AFTER that append (this is the correction: when group `N` is
itself still active the captured text has just grown by one byte, so
`p + 1 = old length` does not complete): while not complete the backref
position becomes `p + 1` and the same configuration (same Backref state) is
re-emitted into the next set; on completion the backref position is reset
to 0 and the epsilon closure of the state's primary successor is emitted. -/
theorem C2_amended_backref_step (g : Graph) (b : Int) (next : ActiveStateList) (s : Nat)
    (st : NFAState) (cap : CaptureGroupInfo) (N : Int)
    (hst : g[s]? = some st)
    (hcode : st.character_code = OPCODE_BACKREF_START + N)
    (hN : 0 ≤ N) (hbb : b < 256)
    (hnd : (cap.is_actively_capturing.map Prod.fst).Nodup) :
    (mapFind cap.captured_text N = none → step_one g b next ⟨s, cap⟩ = next) ∧
    (mapFind cap.captured_text N = some [] → step_one g b next ⟨s, cap⟩ = next) ∧
    (∀ tl, mapFind cap.captured_text N = some tl → tl ≠ [] →
      ∀ p, (mapGetRef cap.backreference_position N 0).1 = p →
        (¬ (p < tl.length ∧ tl.getD p 0 = b) → step_one g b next ⟨s, cap⟩ = next) ∧
        (p < tl.length → tl.getD p 0 = b →
          ((p + 1 < tl.length ∨
            (p + 1 = tl.length ∧ mapFind cap.is_actively_capturing N = some true)) →
            ∃ cap2, step_one g b next ⟨s, cap⟩ = next ++ [⟨s, cap2⟩] ∧
              mapFind cap2.backreference_position N = some (p + 1) ∧
              mapFind cap2.captured_text N =
                some (if mapFind cap.is_actively_capturing N = some true
                      then tl ++ [b] else tl) ∧
              (∀ gid v, mapFind cap.captured_text gid = some v →
                mapFind cap.is_actively_capturing gid = some true →
                mapFind cap2.captured_text gid = some (v ++ [b]))) ∧
          ((p + 1 = tl.length ∧ ¬ mapFind cap.is_actively_capturing N = some true) →
            ∃ cap2, step_one g b next ⟨s, cap⟩ =
                closureInto g st.primary_transition cap2 next ∧
              mapFind cap2.backreference_position N = some 0 ∧
              mapFind cap2.captured_text N = some tl))) := by
  have hcore := step_one_backref_core g b next s st cap N hst hcode hN hbb
  refine ⟨?_, ?_, ?_⟩
  · intro h
    rw [hcore]
    simp only [h]
  · intro h
    rw [hcore]
    simp only [h]
    simp
  · intro tl htl hne p hread
    constructor
    · intro hnot
      rw [hcore]
      simp only [htl]
      rw [if_neg hne]
      simp only [hread]
      by_cases hlt : p < tl.length
      · have hgd : tl.get ⟨p, hlt⟩ = tl.getD p 0 := by
          rw [List.getD_eq_getElem tl 0 hlt]
          rfl
        have : ¬ tl.get ⟨p, hlt⟩ = b := by
          rw [hgd]
          intro hc
          exact hnot ⟨hlt, hc⟩
        rw [dif_pos hlt, if_neg this]
      · rw [dif_neg hlt]
    · intro hlt hgetd
      -- the byte matches: set up the appended snapshot
      have hget : tl.get ⟨p, hlt⟩ = b := by
        rw [show tl.get ⟨p, hlt⟩ = tl.getD p 0 from by
          rw [List.getD_eq_getElem tl 0 hlt]; rfl]
        exact hgetd
      set cap1 : CaptureGroupInfo :=
        { cap with backreference_position := (mapGetRef cap.backreference_position N 0).2 }
        with hcap1
      have hct1 : cap1.captured_text = cap.captured_text := rfl
      have hac1 : cap1.is_actively_capturing = cap.is_actively_capturing := rfl
      have happ := appendToActive_eq cap1 b
      have hfound : mapFind (appendToActive cap1 b).captured_text N =
          some (if (N, true) ∈ cap.is_actively_capturing then tl ++ [b] else tl) := by
        rw [happ]
        simp only [hct1, hac1]
        exact ctFold_find b cap.is_actively_capturing cap.captured_text N tl hnd htl
      have hmemiff : ((N, true) ∈ cap.is_actively_capturing) ↔
          mapFind cap.is_actively_capturing N = some true :=
        mapFind_mem cap.is_actively_capturing N true hnd
      have hpos1 : (appendToActive cap1 b).backreference_position =
          cap1.backreference_position := by
        rw [happ]
      constructor
      · intro hcase
        refine ⟨{ appendToActive cap1 b with
            backreference_position :=
              mapSet (appendToActive cap1 b).backreference_position N (p + 1) }, ?_, ?_, ?_, ?_⟩
        · rw [hcore]
          simp only [htl]
          rw [if_neg hne]
          simp only [hread]
          rw [dif_pos hlt, if_pos hget]
          have hlen : ¬ (p + 1 = ((mapFind (appendToActive cap1 b).captured_text N).getD []).length) := by
            rw [hfound]
            by_cases hact : mapFind cap.is_actively_capturing N = some true
            · rw [if_pos (hmemiff.mpr hact)]
              simp only [Option.getD_some, List.length_append, List.length_singleton]
              rcases hcase with hc | hc
              · omega
              · omega
            · rw [if_neg (fun hm => hact (hmemiff.mp hm))]
              simp only [Option.getD_some]
              rcases hcase with hc | hc
              · omega
              · exact absurd hc.2 hact
          rw [if_neg hlen]
        · rw [mapFind_mapSet_self]
        · rw [hfound]
          by_cases hact : mapFind cap.is_actively_capturing N = some true
          · rw [if_pos (hmemiff.mpr hact), if_pos hact]
          · rw [if_neg (fun hm => hact (hmemiff.mp hm)), if_neg hact]
        · intro gid v hv hvact
          show mapFind (appendToActive cap1 b).captured_text gid = some (v ++ [b])
          rw [happ]
          simp only [hct1, hac1]
          rw [ctFold_find b cap.is_actively_capturing cap.captured_text gid v hnd hv]
          rw [if_pos ((mapFind_mem cap.is_actively_capturing gid true hnd).mpr hvact)]
      · intro hcase
        refine ⟨{ appendToActive cap1 b with
            backreference_position :=
              mapSet (appendToActive cap1 b).backreference_position N 0 }, ?_, ?_, ?_⟩
        · rw [hcore]
          simp only [htl]
          rw [if_neg hne]
          simp only [hread]
          rw [dif_pos hlt, if_pos hget]
          have hlen : p + 1 = ((mapFind (appendToActive cap1 b).captured_text N).getD []).length := by
            rw [hfound]
            rw [if_neg (fun hm => hcase.2 (hmemiff.mp hm))]
            simp only [Option.getD_some]
            exact hcase.1
          rw [if_pos hlen]
        · rw [mapFind_mapSet_self]
        · rw [hfound]
          rw [if_neg (fun hm => hcase.2 (hmemiff.mp hm))]


/-- Witness for C2's amended theorem: the completion case at the concrete
graph `[Accept, Backref(1) → Accept]` with captured text `a`, group 1
closed, position 0, byte `a`. -/
theorem C2_witness :
    ∃ cap2,
      step_one [{ character_code := OPCODE_MATCHED },
          { primary_transition := some 0, character_code := 301 }] 97 []
          ⟨1, { captured_text := [(1, [97])], is_actively_capturing := [(1, false)] }⟩ =
        closureInto [{ character_code := OPCODE_MATCHED },
          { primary_transition := some 0, character_code := 301 }] (some 0) cap2 [] ∧
      mapFind cap2.backreference_position 1 = some 0 ∧
      mapFind cap2.captured_text 1 = some [97] :=
  ((((C2_amended_backref_step
      [{ character_code := OPCODE_MATCHED },
       { primary_transition := some 0, character_code := 301 }] 97 [] 1
      { primary_transition := some 0, character_code := 301 }
      { captured_text := [(1, [97])], is_actively_capturing := [(1, false)] } 1
      rfl (by decide) (by decide) (by decide) (by decide)).2.2)
    [97] rfl (by decide) 0 rfl).2 (by decide) (by decide)).2 ⟨rfl, by decide⟩

/-- Witness for C10 at the compiled NFA of `ab` on text `xab`: the returned
span is `(1, 3)`, within the 3-byte line. -/
theorem C10_witness :
    (match_text_with_positions
      [{ character_code := OPCODE_MATCHED },
       { primary_transition := some 2, character_code := 97 },
       { primary_transition := some 0, character_code := 98 }] 1
      (strBytes "xab")).start_pos ≤
      (match_text_with_positions
        [{ character_code := OPCODE_MATCHED },
         { primary_transition := some 2, character_code := 97 },
         { primary_transition := some 0, character_code := 98 }] 1
        (strBytes "xab")).end_pos ∧
    (match_text_with_positions
      [{ character_code := OPCODE_MATCHED },
       { primary_transition := some 2, character_code := 97 },
       { primary_transition := some 0, character_code := 98 }] 1
      (strBytes "xab")).end_pos ≤ (strBytes "xab").length :=
  (C10_span_well_formed _ 1 _).2 (by decide)


theorem parse_primary_core_succ (fuel : Nat) (c : Int) (rest : List Int) (st : ParserSt) :
    parse_primary_core (fuel + 1) c rest st =
      (if c = chB '.' then
        let al := allocState st { character_code := OPCODE_MATCH_ANY }
        .ok (⟨al.1, [(al.1, false)]⟩, rest, al.2)
      else if c = chB '^' then
        let al := allocState st { character_code := OPCODE_MATCH_START }
        .ok (⟨al.1, [(al.1, false)]⟩, rest, al.2)
      else if c = chB '$' then
        let al := allocState st { character_code := OPCODE_MATCH_END }
        .ok (⟨al.1, [(al.1, false)]⟩, rest, al.2)
      else if c = chB '\\' then
        match rest with
        | [] => .error .unexpectedEndAfterBackslash
        | e :: rest2 =>
          let code :=
            if e = chB 'd' then OPCODE_MATCH_DIGIT
            else if e = chB 'w' then OPCODE_MATCH_WORD
            else if isdigitB e then OPCODE_BACKREF_START + (e - 48)
            else e
          let al := allocState st { character_code := code }
          .ok (⟨al.1, [(al.1, false)]⟩, rest2, al.2)
      else if c = chB '[' then
        let negated := rest.head? = some (chB '^')
        let body := if negated then rest.tail else rest
        let setChars := body.takeWhile (fun b => b ≠ chB ']')
        let afterSet := body.dropWhile (fun b => b ≠ chB ']')
        match afterSet with
        | [] => .error .unclosedBracketExpr
        | _ :: rest2 =>
          let code := if negated then OPCODE_MATCH_ANTI_CHOICE else OPCODE_MATCH_CHOICE
          let al := allocState st { character_code := code, character_set := setChars }
          .ok (⟨al.1, [(al.1, false)]⟩, rest2, al.2)
      else if c = chB '(' then
        let gid := st.next_capture_group_id
        let st1 := { st with next_capture_group_id := gid + 1 }
        let alS := allocState st1
          { character_code := OPCODE_SPLIT, capture_group_start := gid }
        let capture_start_state := alS.1
        match parse_primary_element fuel rest alS.2 with
        | .error e => .error e
        | .ok (firstFrag, rest2, st2) =>
          match parse_regex fuel rest2 firstFrag 0 st2 with
          | .error e => .error e
          | .ok (inner, rest3, st3) =>
            match rest3 with
            | [] => .error .expectedCloseParen
            | r :: rest4 =>
              if r = chB ')' then
                let alE := allocState st3
                  { character_code := OPCODE_SPLIT, capture_group_end := gid }
                let capture_end_state := alE.1
                let g1 := patchSlot alE.2.graph (capture_start_state, false) inner.start_state
                let g2 := patchAll g1 inner.dangling_outputs capture_end_state
                .ok (⟨capture_start_state, [(capture_end_state, false)]⟩, rest4,
                      { alE.2 with graph := g2 })
              else .error .expectedCloseParen
      else
        let al := allocState st { character_code := c }
        .ok (⟨al.1, [(al.1, false)]⟩, rest, al.2)) := rfl

theorem parse_primary_element_nil (fuel : Nat) (st : ParserSt) :
    parse_primary_element (fuel + 1) [] st = .error .unexpectedEndOfPattern := rfl

theorem parse_primary_element_cons (fuel : Nat) (c : Int) (rest : List Int) (st : ParserSt) :
    parse_primary_element (fuel + 1) (c :: rest) st =
      (match parse_primary_core fuel c rest st with
       | .error e => .error e
       | .ok (frag, rest2, st2) => .ok (parse_quantifier frag rest2 st2)) := rfl

theorem parse_regex_nil (fuel : Nat) (lf : NFAFragment) (mp : Int) (st : ParserSt) :
    parse_regex (fuel + 1) [] lf mp st = .ok (lf, [], st) := rfl

theorem parse_regex_cons (fuel : Nat) (look : Int) (rxtail : List Int)
    (left_fragment : NFAFragment) (min_precedence : Int) (st : ParserSt) :
    parse_regex (fuel + 1) (look :: rxtail) left_fragment min_precedence st =
      (if precOf look < min_precedence then
        .ok (left_fragment, look :: rxtail, st)
      else
        let rx1 := if look = chB '|' then (look :: rxtail).tail else look :: rxtail
        match parse_primary_element fuel rx1 st with
        | .error e => .error e
        | .ok (rf, rx2, st2) =>
          match parse_regex_inner fuel rx2 rf look st2 with
          | .error e => .error e
          | .ok (right_fragment, rx3, st3) =>
            if look = chB '|' then
              let al := allocState st3
                { character_code := OPCODE_SPLIT,
                  primary_transition := some left_fragment.start_state,
                  alternative_transition := some right_fragment.start_state }
              let left' : NFAFragment :=
                ⟨al.1, left_fragment.dangling_outputs ++ right_fragment.dangling_outputs⟩
              parse_regex fuel rx3 left' min_precedence al.2
            else
              let g' := patchAll st3.graph left_fragment.dangling_outputs
                          right_fragment.start_state
              let left' : NFAFragment :=
                ⟨left_fragment.start_state, right_fragment.dangling_outputs⟩
              parse_regex fuel rx3 left' min_precedence { st3 with graph := g' }) := rfl

theorem parse_regex_inner_nil (fuel : Nat) (rf : NFAFragment) (op : Int) (st : ParserSt) :
    parse_regex_inner (fuel + 1) [] rf op st = .ok (rf, [], st) := rfl

theorem parse_regex_inner_cons (fuel : Nat) (look : Int) (rxtail : List Int)
    (right_fragment : NFAFragment) (current_operator : Int) (st : ParserSt) :
    parse_regex_inner (fuel + 1) (look :: rxtail) right_fragment current_operator st =
      (if precOf look > precOf current_operator then
        match parse_regex fuel (look :: rxtail) right_fragment
            (precOf current_operator + 1) st with
        | .error e => .error e
        | .ok (rf', rx', st') => parse_regex_inner fuel rx' rf' current_operator st'
      else .ok (right_fragment, look :: rxtail, st)) := rfl


theorem length_dropWhileLe {a : Type} (p : a → Bool) (l : List a) :
    (l.dropWhile p).length ≤ l.length := by
  induction l with
  | nil => simp
  | cons x xs ih =>
    rw [List.dropWhile_cons]
    split
    · simp only [List.length_cons]
      omega
    · exact le_refl _

theorem length_tailLe {a : Type} (l : List a) : l.tail.length ≤ l.length := by
  cases l <;> simp

theorem parse_quantifier_length (frag : NFAFragment) (rest2 : List Int) (st2 : ParserSt)
    (f : NFAFragment) (r : List Int) (s' : ParserSt)
    (h : parse_quantifier frag rest2 st2 = (f, r, s')) : r.length ≤ rest2.length := by
  rw [parse_quantifier.eq_def] at h
  split at h
  · simp only [Prod.mk.injEq] at h
    obtain ⟨-, rfl, -⟩ := h
    exact le_refl _
  · split at h
    · simp only [Prod.mk.injEq] at h
      obtain ⟨-, rfl, -⟩ := h
      simp
    · split at h
      · simp only [Prod.mk.injEq] at h
        obtain ⟨-, rfl, -⟩ := h
        simp
      · split at h
        · simp only [Prod.mk.injEq] at h
          obtain ⟨-, rfl, -⟩ := h
          simp
        · simp only [Prod.mk.injEq] at h
          obtain ⟨-, rfl, -⟩ := h
          exact le_refl _

theorem parse_core_length (fuel : Nat)
    (ihelem : ∀ rx st f r s', parse_primary_element fuel rx st = .ok (f, r, s') →
      r.length < rx.length)
    (ihregex : ∀ rx lf mp st f r s', parse_regex fuel rx lf mp st = .ok (f, r, s') →
      r.length ≤ rx.length) :
    ∀ c rest st f r s', parse_primary_core (fuel + 1) c rest st = .ok (f, r, s') →
      r.length ≤ rest.length := by
  intro c rest st f r s' h
  rw [parse_primary_core_succ] at h
  by_cases h1 : c = chB '.'
  · simp only [if_pos h1, Except.ok.injEq, Prod.mk.injEq] at h
    obtain ⟨-, rfl, -⟩ := h
    exact le_refl _
  · simp only [if_neg h1] at h
    by_cases h2 : c = chB '^'
    · simp only [if_pos h2, Except.ok.injEq, Prod.mk.injEq] at h
      obtain ⟨-, rfl, -⟩ := h
      exact le_refl _
    · simp only [if_neg h2] at h
      by_cases h3 : c = chB '$'
      · simp only [if_pos h3, Except.ok.injEq, Prod.mk.injEq] at h
        obtain ⟨-, rfl, -⟩ := h
        exact le_refl _
      · simp only [if_neg h3] at h
        by_cases h4 : c = chB '\\'
        · simp only [if_pos h4] at h
          match rest with
          | [] => simp at h
          | e :: rest2 =>
            simp only [Except.ok.injEq, Prod.mk.injEq] at h
            obtain ⟨-, rfl, -⟩ := h
            simp
        · simp only [if_neg h4] at h
          by_cases h5 : c = chB '['
          · simp only [if_pos h5] at h
            cases hdrop : List.dropWhile (fun b => decide (b ≠ chB ']'))
                (if rest.head? = some (chB '^') then rest.tail else rest) with
            | nil =>
              simp only [hdrop] at h
              simp at h
            | cons x rest2 =>
              simp only [hdrop] at h
              simp only [Except.ok.injEq, Prod.mk.injEq] at h
              obtain ⟨-, rfl, -⟩ := h
              have h6 : (x :: rest2).length ≤
                  (if rest.head? = some (chB '^') then rest.tail else rest).length := by
                rw [← hdrop]
                exact length_dropWhileLe _ _
              have h7 : (if rest.head? = some (chB '^') then rest.tail else rest).length ≤
                  rest.length := by
                split
                · exact length_tailLe _
                · exact le_refl _
              simp only [List.length_cons] at h6
              omega
          · simp only [if_neg h5] at h
            by_cases h6 : c = chB '('
            · simp only [if_pos h6] at h
              cases hpe : parse_primary_element fuel rest
                  (allocState { st with next_capture_group_id := st.next_capture_group_id + 1 }
                    { character_code := OPCODE_SPLIT,
                      capture_group_start := st.next_capture_group_id }).2 with
              | error e => simp only [hpe] at h; simp at h
              | ok v =>
                obtain ⟨firstFrag, rest2, st2⟩ := v
                simp only [hpe] at h
                cases hpr : parse_regex fuel rest2 firstFrag 0 st2 with
                | error e => simp only [hpr] at h; simp at h
                | ok w =>
                  obtain ⟨inner, rest3, st3⟩ := w
                  simp only [hpr] at h
                  match rest3, hpr with
                  | [], hpr => simp at h
                  | rch :: rest4, hpr =>
                    by_cases h7 : rch = chB ')'
                    · simp only [if_pos h7, Except.ok.injEq, Prod.mk.injEq] at h
                      obtain ⟨-, rfl, -⟩ := h
                      have ha := ihelem rest _ firstFrag rest2 st2 hpe
                      have hb := ihregex rest2 firstFrag 0 st2 inner (rch :: rest4) st3 hpr
                      simp only [List.length_cons] at *
                      omega
                    · simp only [if_neg h7] at h
                      simp at h
            · simp only [if_neg h6, Except.ok.injEq, Prod.mk.injEq] at h
              obtain ⟨-, rfl, -⟩ := h
              exact le_refl _

theorem parse_elem_length (fuel : Nat)
    (ihcore : ∀ c rest st f r s', parse_primary_core fuel c rest st = .ok (f, r, s') →
      r.length ≤ rest.length) :
    ∀ rx st f r s', parse_primary_element (fuel + 1) rx st = .ok (f, r, s') →
      r.length < rx.length := by
  intro rx st f r s' h
  match rx with
  | [] => rw [parse_primary_element_nil] at h; simp at h
  | c :: rest =>
    rw [parse_primary_element_cons] at h
    cases hc : parse_primary_core fuel c rest st with
    | error e => simp only [hc] at h; simp at h
    | ok v =>
      obtain ⟨frag, rest2, st2⟩ := v
      simp only [hc] at h
      simp only [Except.ok.injEq] at h
      have h1 := ihcore c rest st frag rest2 st2 hc
      have h2 : r.length ≤ rest2.length :=
        parse_quantifier_length frag rest2 st2 f r s' h
      simp only [List.length_cons]
      omega

theorem parse_regex_length (fuel : Nat)
    (ihelem2 : ∀ rx st f r s', parse_primary_element fuel rx st = .ok (f, r, s') →
      r.length < rx.length)
    (ihinner : ∀ rx rf op st f r s', parse_regex_inner fuel rx rf op st = .ok (f, r, s') →
      r.length ≤ rx.length)
    (ihregex : ∀ rx lf mp st f r s', parse_regex fuel rx lf mp st = .ok (f, r, s') →
      r.length ≤ rx.length) :
    ∀ rx lf mp st f r s', parse_regex (fuel + 1) rx lf mp st = .ok (f, r, s') →
      r.length ≤ rx.length := by
  intro rx lf mp st f r s' h
  match rx with
  | [] =>
    rw [parse_regex_nil] at h
    simp only [Except.ok.injEq, Prod.mk.injEq] at h
    obtain ⟨-, rfl, -⟩ := h
    exact le_refl _
  | look :: rxtail =>
    rw [parse_regex_cons] at h
    by_cases hpm : precOf look < mp
    · simp only [if_pos hpm, Except.ok.injEq, Prod.mk.injEq] at h
      obtain ⟨-, rfl, -⟩ := h
      exact le_refl _
    · simp only [if_neg hpm] at h
      by_cases hbar : look = chB '|'
      · simp only [if_pos hbar, List.tail_cons] at h
        cases hpe : parse_primary_element fuel rxtail st with
        | error e => simp only [hpe] at h; simp at h
        | ok v =>
          obtain ⟨rf, rx2, st2⟩ := v
          simp only [hpe] at h
          cases hpi : parse_regex_inner fuel rx2 rf look st2 with
          | error e => simp only [hpi] at h; simp at h
          | ok w =>
            obtain ⟨right, rx3, st3⟩ := w
            simp only [hpi] at h
            have h1 := ihelem2 rxtail st rf rx2 st2 hpe
            have h2 := ihinner rx2 rf look st2 right rx3 st3 hpi
            have h3 := ihregex rx3 _ mp _ f r s' h
            have h4 : (look :: rxtail).length = rxtail.length + 1 := by simp
            omega
      · simp only [if_neg hbar] at h
        cases hpe : parse_primary_element fuel (look :: rxtail) st with
        | error e => simp only [hpe] at h; simp at h
        | ok v =>
          obtain ⟨rf, rx2, st2⟩ := v
          simp only [hpe] at h
          cases hpi : parse_regex_inner fuel rx2 rf look st2 with
          | error e => simp only [hpi] at h; simp at h
          | ok w =>
            obtain ⟨right, rx3, st3⟩ := w
            simp only [hpi] at h
            have h1 := ihelem2 (look :: rxtail) st rf rx2 st2 hpe
            have h2 := ihinner rx2 rf look st2 right rx3 st3 hpi
            have h3 := ihregex rx3 _ mp _ f r s' h
            have h4 : (look :: rxtail).length = rxtail.length + 1 := by simp
            omega

theorem parse_inner_length (fuel : Nat)
    (ihregex : ∀ rx lf mp st f r s', parse_regex fuel rx lf mp st = .ok (f, r, s') →
      r.length ≤ rx.length)
    (ihinner : ∀ rx rf op st f r s', parse_regex_inner fuel rx rf op st = .ok (f, r, s') →
      r.length ≤ rx.length) :
    ∀ rx rf op st f r s', parse_regex_inner (fuel + 1) rx rf op st = .ok (f, r, s') →
      r.length ≤ rx.length := by
  intro rx rf op st f r s' h
  match rx with
  | [] =>
    rw [parse_regex_inner_nil] at h
    simp only [Except.ok.injEq, Prod.mk.injEq] at h
    obtain ⟨-, rfl, -⟩ := h
    exact le_refl _
  | look :: rxtail =>
    rw [parse_regex_inner_cons] at h
    by_cases hg : precOf look > precOf op
    · simp only [if_pos hg] at h
      cases hpr : parse_regex fuel (look :: rxtail) rf (precOf op + 1) st with
      | error e => simp only [hpr] at h; simp at h
      | ok v =>
        obtain ⟨rf2, rx2, st2⟩ := v
        simp only [hpr] at h
        have h1 := ihregex (look :: rxtail) rf (precOf op + 1) st rf2 rx2 st2 hpr
        have h2 := ihinner rx2 rf2 op st2 f r s' h
        omega
    · simp only [if_neg hg, Except.ok.injEq, Prod.mk.injEq] at h
      obtain ⟨-, rfl, -⟩ := h
      exact le_refl _

theorem parse_consume (fuel : Nat) :
    (∀ c rest st f r s', parse_primary_core fuel c rest st = .ok (f, r, s') →
      r.length ≤ rest.length) ∧
    (∀ rx st f r s', parse_primary_element fuel rx st = .ok (f, r, s') →
      r.length < rx.length) ∧
    (∀ rx lf mp st f r s', parse_regex fuel rx lf mp st = .ok (f, r, s') →
      r.length ≤ rx.length) ∧
    (∀ rx rf op st f r s', parse_regex_inner fuel rx rf op st = .ok (f, r, s') →
      r.length ≤ rx.length) := by
  induction fuel with
  | zero =>
    refine ⟨fun c rest st f r s' h => ?_, fun rx st f r s' h => ?_,
      fun rx lf mp st f r s' h => ?_, fun rx rf op st f r s' h => ?_⟩ <;>
      simp [parse_primary_core, parse_primary_element, parse_regex,
        parse_regex_inner] at h
  | succ fuel ih =>
    obtain ⟨ihcore, ihelem, ihregex, ihinner⟩ := ih
    exact ⟨parse_core_length fuel ihelem ihregex,
      parse_elem_length fuel ihcore,
      parse_regex_length fuel ihelem ihinner ihregex,
      parse_inner_length fuel ihregex ihinner⟩


theorem parse_regex_guard_consume (fuel : Nat) (look : Int) (rxtail : List Int)
    (lf : NFAFragment) (mp : Int) (st : ParserSt) (f : NFAFragment) (r : List Int)
    (s' : ParserSt) (hg : ¬ precOf look < mp)
    (h : parse_regex fuel (look :: rxtail) lf mp st = .ok (f, r, s')) :
    r.length < (look :: rxtail).length := by
  match fuel with
  | 0 => simp [parse_regex] at h
  | fuel + 1 =>
    rw [parse_regex_cons] at h
    simp only [if_neg hg] at h
    obtain ⟨-, ihelem, ihregex, ihinner⟩ := parse_consume fuel
    by_cases hbar : look = chB '|'
    · simp only [if_pos hbar, List.tail_cons] at h
      cases hpe : parse_primary_element fuel rxtail st with
      | error e => simp only [hpe] at h; simp at h
      | ok v =>
        obtain ⟨rf, rx2, st2⟩ := v
        simp only [hpe] at h
        cases hpi : parse_regex_inner fuel rx2 rf look st2 with
        | error e => simp only [hpi] at h; simp at h
        | ok w =>
          obtain ⟨right, rx3, st3⟩ := w
          simp only [hpi] at h
          have h1 := ihelem rxtail st rf rx2 st2 hpe
          have h2 := ihinner rx2 rf look st2 right rx3 st3 hpi
          have h3 := ihregex rx3 _ mp _ f r s' h
          have h4 : (look :: rxtail).length = rxtail.length + 1 := by simp
          omega
    · simp only [if_neg hbar] at h
      cases hpe : parse_primary_element fuel (look :: rxtail) st with
      | error e => simp only [hpe] at h; simp at h
      | ok v =>
        obtain ⟨rf, rx2, st2⟩ := v
        simp only [hpe] at h
        cases hpi : parse_regex_inner fuel rx2 rf look st2 with
        | error e => simp only [hpi] at h; simp at h
        | ok w =>
          obtain ⟨right, rx3, st3⟩ := w
          simp only [hpi] at h
          have h1 := ihelem (look :: rxtail) st rf rx2 st2 hpe
          have h2 := ihinner rx2 rf look st2 right rx3 st3 hpi
          have h3 := ihregex rx3 _ mp _ f r s' h
          omega

theorem parse_fuel_ok (n : Nat) :
    (∀ fuel (rx : List Int) st, rx.length ≤ n → 4 * rx.length + 2 ≤ fuel →
      parse_primary_element fuel rx st ≠ .error .outOfFuel) ∧
    (∀ fuel c (rest : List Int) st, rest.length ≤ n → 4 * rest.length + 5 ≤ fuel →
      parse_primary_core fuel c rest st ≠ .error .outOfFuel) ∧
    (∀ fuel (rx : List Int) lf mp st, rx.length ≤ n → 4 * rx.length + 3 ≤ fuel →
      parse_regex fuel rx lf mp st ≠ .error .outOfFuel) ∧
    (∀ fuel (rx : List Int) rf op st, rx.length ≤ n → 4 * rx.length + 4 ≤ fuel →
      parse_regex_inner fuel rx rf op st ≠ .error .outOfFuel) := by
  induction n using Nat.strong_induction_on with
  | _ n IH =>
    have helem : ∀ fuel (rx : List Int) st, rx.length ≤ n → 4 * rx.length + 2 ≤ fuel →
        parse_primary_element fuel rx st ≠ .error .outOfFuel := by
      intro fuel rx st hn hf
      match fuel, rx with
      | 0, _ => omega
      | fuel + 1, [] => rw [parse_primary_element_nil]; simp
      | fuel + 1, c :: rest =>
        rw [parse_primary_element_cons]
        have hm : rest.length ≤ n - 1 := by
          simp only [List.length_cons] at hn
          omega
        have hcore := (IH (n - 1) (by
          simp only [List.length_cons] at hn
          omega)).2.1 fuel c rest st hm (by
            simp only [List.length_cons] at hf
            omega)
        cases hq : parse_primary_core fuel c rest st with
        | error e =>
          rw [hq] at hcore
          simpa using hcore
        | ok v => simp
    have hcore : ∀ fuel c (rest : List Int) st, rest.length ≤ n →
        4 * rest.length + 5 ≤ fuel →
        parse_primary_core fuel c rest st ≠ .error .outOfFuel := by
      intro fuel c rest st hn hf
      match fuel with
      | 0 => omega
      | fuel + 1 =>
        rw [parse_primary_core_succ]
        by_cases h1 : c = chB '.'
        · simp [h1]
        · simp only [if_neg h1]
          by_cases h2 : c = chB '^'
          · simp [h2]
          · simp only [if_neg h2]
            by_cases h3 : c = chB '$'
            · simp [h3]
            · simp only [if_neg h3]
              by_cases h4 : c = chB '\\'
              · simp only [if_pos h4]
                match rest with
                | [] => simp
                | e :: rest2 => simp
              · simp only [if_neg h4]
                by_cases h5 : c = chB '['
                · simp only [if_pos h5]
                  cases List.dropWhile (fun b => decide (b ≠ chB ']'))
                      (if rest.head? = some (chB '^') then rest.tail else rest) with
                  | nil => simp
                  | cons x rest2 => simp
                · simp only [if_neg h5]
                  by_cases h6 : c = chB '('
                  · simp only [if_pos h6]
                    have he := helem fuel rest
                      (allocState
                        { st with next_capture_group_id := st.next_capture_group_id + 1 }
                        { character_code := OPCODE_SPLIT,
                          capture_group_start := st.next_capture_group_id }).2
                      hn (by omega)
                    cases hpe : parse_primary_element fuel rest
                        (allocState
                          { st with next_capture_group_id := st.next_capture_group_id + 1 }
                          { character_code := OPCODE_SPLIT,
                            capture_group_start := st.next_capture_group_id }).2 with
                    | error e =>
                      rw [hpe] at he
                      simpa using he
                    | ok v =>
                      obtain ⟨firstFrag, rest2, st2⟩ := v
                      have hr2 : rest2.length < rest.length :=
                        (parse_consume fuel).2.1 rest _ firstFrag rest2 st2 hpe
                      have hn1 : 1 ≤ n := by omega
                      have hreg := (IH (n - 1) (by omega)).2.2.1 fuel rest2 firstFrag 0 st2
                        (by omega) (by omega)
                      cases hpr : parse_regex fuel rest2 firstFrag 0 st2 with
                      | error e =>
                        rw [hpr] at hreg
                        simp only [hpr]
                        simpa using hreg
                      | ok w =>
                        obtain ⟨inner, rest3, st3⟩ := w
                        simp only [hpr]
                        match rest3 with
                        | [] => simp
                        | rch :: rest4 =>
                          by_cases h7 : rch = chB ')'
                          · simp [h7]
                          · simp [h7]
                  · simp [h6]
    have hregex : ∀ fuel (rx : List Int) lf mp st, rx.length ≤ n →
        4 * rx.length + 3 ≤ fuel →
        parse_regex fuel rx lf mp st ≠ .error .outOfFuel := by
      intro fuel rx lf mp st hn hf
      match fuel, rx with
      | 0, _ => omega
      | fuel + 1, [] => rw [parse_regex_nil]; simp
      | fuel + 1, look :: rxtail =>
        have hlen : (look :: rxtail).length = rxtail.length + 1 := by simp
        rw [hlen] at hn hf
        rw [parse_regex_cons]
        by_cases hpm : precOf look < mp
        · simp [hpm]
        · simp only [if_neg hpm]
          by_cases hbar : look = chB '|'
          · simp only [if_pos hbar, List.tail_cons]
            have he := helem fuel rxtail st (by omega) (by omega)
            cases hpe : parse_primary_element fuel rxtail st with
            | error e => rw [hpe] at he; simpa using he
            | ok v =>
              obtain ⟨rf, rx2, st2⟩ := v
              have hr2 : rx2.length < rxtail.length :=
                (parse_consume fuel).2.1 rxtail st rf rx2 st2 hpe
              have hin := (IH (n - 1) (by omega)).2.2.2 fuel rx2 rf look st2
                (by omega) (by omega)
              cases hpi : parse_regex_inner fuel rx2 rf look st2 with
              | error e => rw [hpi] at hin; simp only [hpi]; simpa using hin
              | ok w =>
                obtain ⟨rfr, rx3, st3⟩ := w
                have hr3 : rx3.length ≤ rx2.length :=
                  (parse_consume fuel).2.2.2 rx2 rf look st2 rfr rx3 st3 hpi
                simp only [hpi, if_pos hbar]
                exact (IH (n - 1) (by omega)).2.2.1 fuel rx3 _ mp _
                  (by omega) (by omega)
          · simp only [if_neg hbar]
            have he := helem fuel (look :: rxtail) st (by simp; omega)
              (by simp; omega)
            cases hpe : parse_primary_element fuel (look :: rxtail) st with
            | error e => rw [hpe] at he; simpa using he
            | ok v =>
              obtain ⟨rf, rx2, st2⟩ := v
              have hr2 : rx2.length < (look :: rxtail).length :=
                (parse_consume fuel).2.1 (look :: rxtail) st rf rx2 st2 hpe
              rw [hlen] at hr2
              have hin := (IH (n - 1) (by omega)).2.2.2 fuel rx2 rf look st2
                (by omega) (by omega)
              cases hpi : parse_regex_inner fuel rx2 rf look st2 with
              | error e => rw [hpi] at hin; simp only [hpi]; simpa using hin
              | ok w =>
                obtain ⟨rfr, rx3, st3⟩ := w
                have hr3 : rx3.length ≤ rx2.length :=
                  (parse_consume fuel).2.2.2 rx2 rf look st2 rfr rx3 st3 hpi
                simp only [hpi, if_neg hbar]
                exact (IH (n - 1) (by omega)).2.2.1 fuel rx3 _ mp _
                  (by omega) (by omega)
    have hinner : ∀ fuel (rx : List Int) rf op st, rx.length ≤ n →
        4 * rx.length + 4 ≤ fuel →
        parse_regex_inner fuel rx rf op st ≠ .error .outOfFuel := by
      intro fuel rx rf op st hn hf
      match fuel, rx with
      | 0, _ => omega
      | fuel + 1, [] => rw [parse_regex_inner_nil]; simp
      | fuel + 1, look :: rxtail =>
        have hlen : (look :: rxtail).length = rxtail.length + 1 := by simp
        rw [hlen] at hn hf
        rw [parse_regex_inner_cons]
        by_cases hg : precOf look > precOf op
        · simp only [if_pos hg]
          have hr := hregex fuel (look :: rxtail) rf (precOf op + 1) st
            (by omega) (by simp; omega)
          cases hpr : parse_regex fuel (look :: rxtail) rf (precOf op + 1) st with
          | error e => rw [hpr] at hr; simpa using hr
          | ok w =>
            obtain ⟨rf', rx', st'⟩ := w
            have hr' : rx'.length < (look :: rxtail).length :=
              parse_regex_guard_consume fuel look rxtail rf (precOf op + 1) st
                rf' rx' st' (by omega) hpr
            rw [hlen] at hr'
            exact (IH (n - 1) (by omega)).2.2.2 fuel rx' rf' op st'
              (by omega) (by omega)
        · simp [hg]
    exact ⟨helem, hcore, hregex, hinner⟩

theorem parse_no_generic (fuel : Nat) :
    (∀ (rx : List Int) st, parse_primary_element fuel rx st ≠ .error .genericError) ∧
    (∀ c (rest : List Int) st, parse_primary_core fuel c rest st ≠ .error .genericError) ∧
    (∀ (rx : List Int) lf mp st, parse_regex fuel rx lf mp st ≠ .error .genericError) ∧
    (∀ (rx : List Int) rf op st, parse_regex_inner fuel rx rf op st ≠ .error .genericError) := by
  induction fuel with
  | zero =>
    refine ⟨fun rx st => ?_, fun c rest st => ?_, fun rx lf mp st => ?_,
      fun rx rf op st => ?_⟩ <;>
      simp [parse_primary_element, parse_primary_core, parse_regex, parse_regex_inner]
  | succ fuel ih =>
    obtain ⟨ihe, ihc, ihr, ihi⟩ := ih
    have helem : ∀ (rx : List Int) st,
        parse_primary_element (fuel + 1) rx st ≠ .error .genericError := by
      intro rx st
      match rx with
      | [] => rw [parse_primary_element_nil]; simp
      | c :: rest =>
        rw [parse_primary_element_cons]
        have hcore := ihc c rest st
        cases hq : parse_primary_core fuel c rest st with
        | error e => rw [hq] at hcore; simpa using hcore
        | ok v => simp
    have hcoreT : ∀ c (rest : List Int) st,
        parse_primary_core (fuel + 1) c rest st ≠ .error .genericError := by
      intro c rest st
      rw [parse_primary_core_succ]
      by_cases h1 : c = chB '.'
      · simp [h1]
      · simp only [if_neg h1]
        by_cases h2 : c = chB '^'
        · simp [h2]
        · simp only [if_neg h2]
          by_cases h3 : c = chB '$'
          · simp [h3]
          · simp only [if_neg h3]
            by_cases h4 : c = chB '\\'
            · simp only [if_pos h4]
              match rest with
              | [] => simp
              | e :: rest2 => simp
            · simp only [if_neg h4]
              by_cases h5 : c = chB '['
              · simp only [if_pos h5]
                cases List.dropWhile (fun b => decide (b ≠ chB ']'))
                    (if rest.head? = some (chB '^') then rest.tail else rest) with
                | nil => simp
                | cons x rest2 => simp
              · simp only [if_neg h5]
                by_cases h6 : c = chB '('
                · simp only [if_pos h6]
                  have he := ihe rest
                    (allocState
                      { st with next_capture_group_id := st.next_capture_group_id + 1 }
                      { character_code := OPCODE_SPLIT,
                        capture_group_start := st.next_capture_group_id }).2
                  cases hpe : parse_primary_element fuel rest
                      (allocState
                        { st with next_capture_group_id := st.next_capture_group_id + 1 }
                        { character_code := OPCODE_SPLIT,
                          capture_group_start := st.next_capture_group_id }).2 with
                  | error e => rw [hpe] at he; simpa using he
                  | ok v =>
                    obtain ⟨firstFrag, rest2, st2⟩ := v
                    have hreg := ihr rest2 firstFrag 0 st2
                    cases hpr : parse_regex fuel rest2 firstFrag 0 st2 with
                    | error e =>
                      rw [hpr] at hreg
                      simp only [hpr]
                      simpa using hreg
                    | ok w =>
                      obtain ⟨inner, rest3, st3⟩ := w
                      simp only [hpr]
                      match rest3 with
                      | [] => simp
                      | rch :: rest4 =>
                        by_cases h7 : rch = chB ')'
                        · simp [h7]
                        · simp [h7]
                · simp [h6]
    have hregT : ∀ (rx : List Int) lf mp st,
        parse_regex (fuel + 1) rx lf mp st ≠ .error .genericError := by
      intro rx lf mp st
      match rx with
      | [] => rw [parse_regex_nil]; simp
      | look :: rxtail =>
        rw [parse_regex_cons]
        by_cases hpm : precOf look < mp
        · simp [hpm]
        · simp only [if_neg hpm]
          by_cases hbar : look = chB '|'
          · simp only [if_pos hbar, List.tail_cons]
            have he := ihe rxtail st
            cases hpe : parse_primary_element fuel rxtail st with
            | error e => rw [hpe] at he; simpa using he
            | ok v =>
              obtain ⟨rf, rx2, st2⟩ := v
              have hin := ihi rx2 rf look st2
              cases hpi : parse_regex_inner fuel rx2 rf look st2 with
              | error e => rw [hpi] at hin; simp only [hpi]; simpa using hin
              | ok w =>
                obtain ⟨rfr, rx3, st3⟩ := w
                simp only [hpi, if_pos hbar]
                exact ihr rx3 _ mp _
          · simp only [if_neg hbar]
            have he := ihe (look :: rxtail) st
            cases hpe : parse_primary_element fuel (look :: rxtail) st with
            | error e => rw [hpe] at he; simpa using he
            | ok v =>
              obtain ⟨rf, rx2, st2⟩ := v
              have hin := ihi rx2 rf look st2
              cases hpi : parse_regex_inner fuel rx2 rf look st2 with
              | error e => rw [hpi] at hin; simp only [hpi]; simpa using hin
              | ok w =>
                obtain ⟨rfr, rx3, st3⟩ := w
                simp only [hpi, if_neg hbar]
                exact ihr rx3 _ mp _
    have hinnT : ∀ (rx : List Int) rf op st,
        parse_regex_inner (fuel + 1) rx rf op st ≠ .error .genericError := by
      intro rx rf op st
      match rx with
      | [] => rw [parse_regex_inner_nil]; simp
      | look :: rxtail =>
        rw [parse_regex_inner_cons]
        by_cases hg : precOf look > precOf op
        · simp only [if_pos hg]
          have hr := ihr (look :: rxtail) rf (precOf op + 1) st
          cases hpr : parse_regex fuel (look :: rxtail) rf (precOf op + 1) st with
          | error e => rw [hpr] at hr; simpa using hr
          | ok w =>
            obtain ⟨rf', rx', st'⟩ := w
            exact ihi rx' rf' op st'
        · simp [hg]
    exact ⟨helem, hcoreT, hregT, hinnT⟩

theorem parse_regex_post (fuel : Nat) (rx : List Int) (lf : NFAFragment) (mp : Int)
    (st : ParserSt) (f : NFAFragment) (r : List Int) (s' : ParserSt)
    (h : parse_regex fuel rx lf mp st = .ok (f, r, s')) :
    r = [] ∨ ∃ a t, r = a :: t ∧ precOf a < mp := by
  induction fuel generalizing rx lf st f r s' with
  | zero => simp [parse_regex] at h
  | succ fuel ih =>
    match rx with
    | [] =>
      rw [parse_regex_nil] at h
      simp only [Except.ok.injEq, Prod.mk.injEq] at h
      exact Or.inl h.2.1.symm
    | look :: rxtail =>
      rw [parse_regex_cons] at h
      by_cases hpm : precOf look < mp
      · rw [if_pos hpm] at h
        simp only [Except.ok.injEq, Prod.mk.injEq] at h
        exact Or.inr ⟨look, rxtail, h.2.1.symm, hpm⟩
      · rw [if_neg hpm] at h
        by_cases hbar : look = chB '|'
        · simp only [if_pos hbar, List.tail_cons] at h
          cases hpe : parse_primary_element fuel rxtail st with
          | error e => simp [hpe] at h
          | ok v =>
            obtain ⟨rf, rx2, st2⟩ := v
            simp only [hpe] at h
            cases hpi : parse_regex_inner fuel rx2 rf look st2 with
            | error e => simp [hpi] at h
            | ok w =>
              obtain ⟨rfr, rx3, st3⟩ := w
              simp only [hpi, if_pos hbar] at h
              exact ih _ _ _ _ _ _ h
        · simp only [if_neg hbar] at h
          cases hpe : parse_primary_element fuel (look :: rxtail) st with
          | error e => simp [hpe] at h
          | ok v =>
            obtain ⟨rf, rx2, st2⟩ := v
            simp only [hpe] at h
            cases hpi : parse_regex_inner fuel rx2 rf look st2 with
            | error e => simp [hpi] at h
            | ok w =>
              obtain ⟨rfr, rx3, st3⟩ := w
              simp only [hpi, if_neg hbar] at h
              exact ih _ _ _ _ _ _ h

theorem precOf_neg (c : Int) (h : precOf c < 0) : c = chB ')' ∨ c = chB ']' := by
  by_cases h1 : c = chB '|'
  · simp [precOf, h1] at h
  · by_cases h2 : c = chB ']' ∨ c = chB ')'
    · tauto
    · simp [precOf, h1, h2] at h

/-- C7: every compilation failure is one of the six syntax errors the spec
lists (the `genericError` fallback and the `outOfFuel` sentinel are
unreachable); in the trailing-input case the parser's leftover necessarily
starts with `)` or `]` and the error is `unmatchedCloseParen`
resp. `unmatchedCloseBracket`; and on any compile error `main` prints no
line and exits 1, processing no input. -/
theorem C7_compile_errors (rx : List Int) (e : ParseErr)
    (h : compile_regex_to_nfa rx = .error e) :
    (e = .unexpectedEndOfPattern ∨ e = .unexpectedEndAfterBackslash ∨
     e = .unclosedBracketExpr ∨ e = .expectedCloseParen ∨
     e = .unmatchedCloseParen ∨ e = .unmatchedCloseBracket) ∧
    (∀ f1 r1 s1 f2 rh rt s2,
       parse_primary_element (compileFuel rx) rx
         ⟨[{ character_code := OPCODE_MATCHED }], 1⟩ = .ok (f1, r1, s1) →
       parse_regex (compileFuel rx) r1 f1 0 s1 = .ok (f2, rh :: rt, s2) →
       (rh = chB ')' ∧ e = .unmatchedCloseParen) ∨
       (rh = chB ']' ∧ e = .unmatchedCloseBracket)) ∧
    (∀ args stdin fd pa, parse_args args {} = some pa →
       pa.regex_pattern_string = rx →
       main_grep args stdin fd = ([], 1)) := by
  have h0 := h
  have hmain : ∀ args stdin fd pa, parse_args args {} = some pa →
      pa.regex_pattern_string = rx → main_grep args stdin fd = ([], 1) := by
    intro args stdin fd pa hp hre
    exact main_grep_err args stdin fd pa e hp (by rw [hre]; exact h0)
  have hsix : ∀ e' : ParseErr, e' ≠ .outOfFuel → e' ≠ .genericError →
      (e' = .unexpectedEndOfPattern ∨ e' = .unexpectedEndAfterBackslash ∨
       e' = .unclosedBracketExpr ∨ e' = .expectedCloseParen ∨
       e' = .unmatchedCloseParen ∨ e' = .unmatchedCloseBracket) := by
    intro e' h1 h2
    cases e' <;> simp_all
  by_cases hnil : rx = []
  · rw [hnil] at h
    simp [compile_regex_to_nfa] at h
  · rw [compile_regex_to_nfa] at h
    rw [if_neg hnil] at h
    cases hpe : parse_primary_element (compileFuel rx) rx
        ⟨[{ character_code := OPCODE_MATCHED }], 1⟩ with
    | error e1 =>
      simp only [hpe] at h
      simp only [Except.error.injEq] at h
      subst h
      have hoof := (parse_fuel_ok rx.length).1 (compileFuel rx) rx
        ⟨[{ character_code := OPCODE_MATCHED }], 1⟩ le_rfl
        (by simp only [compileFuel]; omega)
      have hng := (parse_no_generic (compileFuel rx)).1 rx
        ⟨[{ character_code := OPCODE_MATCHED }], 1⟩
      rw [hpe] at hoof hng
      refine ⟨hsix _ (by simpa using hoof) (by simpa using hng), ?_, hmain⟩
      intro f1 r1 s1 f2 rh rt s2 hE hR
      exact absurd hE (by simp)
    | ok v =>
      obtain ⟨f1, r1, s1⟩ := v
      simp only [hpe] at h
      have hlen1 : r1.length < rx.length :=
        (parse_consume (compileFuel rx)).2.1 rx _ f1 r1 s1 hpe
      cases hpr : parse_regex (compileFuel rx) r1 f1 0 s1 with
      | error e1 =>
        simp only [hpr] at h
        simp only [Except.error.injEq] at h
        subst h
        have hoof := (parse_fuel_ok r1.length).2.2.1 (compileFuel rx) r1 f1 0 s1
          le_rfl (by simp only [compileFuel]; omega)
        have hng := (parse_no_generic (compileFuel rx)).2.2.1 r1 f1 0 s1
        rw [hpr] at hoof hng
        refine ⟨hsix _ (by simpa using hoof) (by simpa using hng), ?_, hmain⟩
        intro f1' r1' s1' f2' rh' rt' s2' hE hR
        simp only [Except.ok.injEq, Prod.mk.injEq] at hE
        obtain ⟨hA, hB, hC⟩ := hE
        subst hA
        subst hB
        subst hC
        rw [hpr] at hR
        exact absurd hR (by simp)
      | ok w =>
        obtain ⟨f2, rem, s2⟩ := w
        simp only [hpr] at h
        cases rem with
        | nil => simp at h
        | cons rh rt =>
          have hpost := parse_regex_post (compileFuel rx) r1 f1 0 s1 f2 (rh :: rt)
            s2 hpr
          rcases hpost with hcontra | ⟨a, t, heq, hprec⟩
          · exact absurd hcontra (by simp)
          · simp only [List.cons.injEq] at heq
            obtain ⟨hra, hrt⟩ := heq
            subst hra
            rcases precOf_neg rh hprec with hP | hB2
            · rw [hP] at h
              simp at h
              subst h
              refine ⟨by simp, ?_, hmain⟩
              intro f1' r1' s1' f2' rh' rt' s2' hE hR
              simp only [Except.ok.injEq, Prod.mk.injEq] at hE
              obtain ⟨hA, hB, hC⟩ := hE
              subst hA
              subst hB
              subst hC
              rw [hpr] at hR
              simp only [Except.ok.injEq, Prod.mk.injEq, List.cons.injEq] at hR
              obtain ⟨h1, ⟨h2, h3⟩, h4⟩ := hR
              exact Or.inl ⟨h2.symm.trans hP, rfl⟩
            · have hne : rh ≠ chB ')' := by
                rw [hB2]
                decide
              rw [hB2] at h hne
              simp only [if_neg hne] at h
              simp at h
              subst h
              refine ⟨by simp, ?_, hmain⟩
              intro f1' r1' s1' f2' rh' rt' s2' hE hR
              simp only [Except.ok.injEq, Prod.mk.injEq] at hE
              obtain ⟨hA, hB, hC⟩ := hE
              subst hA
              subst hB
              subst hC
              rw [hpr] at hR
              simp only [Except.ok.injEq, Prod.mk.injEq, List.cons.injEq] at hR
              obtain ⟨h1, ⟨h2, h3⟩, h4⟩ := hR
              exact Or.inr ⟨h2.symm.trans hB2, rfl⟩

theorem C7_witness :
    compile_regex_to_nfa (strBytes "(") = .error .unexpectedEndOfPattern ∧
    (ParseErr.unexpectedEndOfPattern = .unexpectedEndOfPattern ∨
     ParseErr.unexpectedEndOfPattern = .unexpectedEndAfterBackslash ∨
     ParseErr.unexpectedEndOfPattern = .unclosedBracketExpr ∨
     ParseErr.unexpectedEndOfPattern = .expectedCloseParen ∨
     ParseErr.unexpectedEndOfPattern = .unmatchedCloseParen ∨
     ParseErr.unexpectedEndOfPattern = .unmatchedCloseBracket) :=
  ⟨rfl, (C7_compile_errors (strBytes "(") .unexpectedEndOfPattern rfl).1⟩


theorem precOf_literal (c : Int) (hc : LiteralByte c) : precOf c = 1 := by
  have h1 : c ≠ chB '|' := fun h => hc.2.2 (by rw [h]; decide)
  have h2 : ¬ (c = chB ']' ∨ c = chB ')') := by
    rintro (h | h) <;> exact hc.2.2 (by rw [h]; decide)
  simp [precOf, h1, h2]

theorem core_literal (fuel : Nat) (c : Int) (rest : List Int) (st : ParserSt)
    (hc : LiteralByte c) :
    parse_primary_core (fuel + 1) c rest st =
      .ok (⟨st.graph.length, [(st.graph.length, false)]⟩, rest,
           { st with graph := st.graph ++ [{ character_code := c }] }) := by
  have h1 : c ≠ chB '.' := fun h => hc.2.2 (by rw [h]; decide)
  have h2 : c ≠ chB '^' := fun h => hc.2.2 (by rw [h]; decide)
  have h3 : c ≠ chB '$' := fun h => hc.2.2 (by rw [h]; decide)
  have h4 : c ≠ chB '\\' := fun h => hc.2.2 (by rw [h]; decide)
  have h5 : c ≠ chB '[' := fun h => hc.2.2 (by rw [h]; decide)
  have h6 : c ≠ chB '(' := fun h => hc.2.2 (by rw [h]; decide)
  rw [parse_primary_core_succ]
  rw [if_neg h1, if_neg h2, if_neg h3, if_neg h4, if_neg h5, if_neg h6]
  rfl

theorem elem_literal (fuel : Nat) (c : Int) (rest : List Int) (st : ParserSt)
    (hc : LiteralByte c) (hrest : ∀ d ∈ rest, LiteralByte d) (hf : 2 ≤ fuel) :
    parse_primary_element fuel (c :: rest) st =
      .ok (⟨st.graph.length, [(st.graph.length, false)]⟩, rest,
           { st with graph := st.graph ++ [{ character_code := c }] }) := by
  match fuel, hf with
  | fuel + 2, _ =>
    rw [parse_primary_element_cons, core_literal fuel c rest st hc]
    simp only []
    match rest, hrest with
    | [], _ => rfl
    | d :: rest', hrest =>
      have hd : LiteralByte d := hrest d (by simp)
      have hq1 : d ≠ chB '*' := fun h => hd.2.2 (by rw [h]; decide)
      have hq2 : d ≠ chB '+' := fun h => hd.2.2 (by rw [h]; decide)
      have hq3 : d ≠ chB '?' := fun h => hd.2.2 (by rw [h]; decide)
      simp only [parse_quantifier, if_neg hq1, if_neg hq2, if_neg hq3]

theorem inner_literal (fuel : Nat) (rx : List Int) (rf : NFAFragment) (op : Int)
    (st : ParserSt) (hop : precOf op = 1) (hrx : ∀ c ∈ rx, LiteralByte c)
    (hf : 1 ≤ fuel) :
    parse_regex_inner fuel rx rf op st = .ok (rf, rx, st) := by
  match fuel, hf with
  | fuel + 1, _ =>
    match rx, hrx with
    | [], _ => rw [parse_regex_inner_nil]
    | look :: rxtail, hrx =>
      rw [parse_regex_inner_cons]
      have hlk : precOf look = 1 := precOf_literal look (hrx look (by simp))
      rw [if_neg (by rw [hlk, hop]; omega)]


theorem chain_regex (L : List Int) (hL : ∀ c ∈ L, LiteralByte c) :
    ∀ (rest : List Int) (fuel j : Nat) (st : ParserSt),
      rest = L.drop j → 1 ≤ j → j ≤ L.length →
      ChainInv L j st.graph →
      rest.length + 2 ≤ fuel →
      ∃ st', parse_regex fuel rest ⟨1, [(j, false)]⟩ 0 st =
          .ok (⟨1, [(L.length, false)]⟩, [], st') ∧
        ChainInv L L.length st'.graph := by
  intro rest
  induction rest with
  | nil =>
    intro fuel j st hdrop hj1 hjn hinv hf
    have hj : j = L.length := by
      have := List.drop_eq_nil_iff.mp hdrop.symm
      omega
    subst hj
    match fuel, hf with
    | fuel + 1, _ =>
      rw [parse_regex_nil]
      exact ⟨st, rfl, hinv⟩
  | cons d rest2 ih =>
    intro fuel j st hdrop hj1 hjn hinv hf
    have hj : j < L.length := by
      by_contra hcon
      rw [List.drop_eq_nil_iff.mpr (by omega)] at hdrop
      simp at hdrop
    have hdg : L.drop j = L[j] :: L.drop (j + 1) := List.drop_eq_getElem_cons hj
    rw [hdg] at hdrop
    simp only [List.cons.injEq] at hdrop
    obtain ⟨hd, hrest2⟩ := hdrop
    have hdL : LiteralByte d := hd ▸ hL L[j] (L.getElem_mem hj)
    have hrest2L : ∀ c ∈ rest2, LiteralByte c := by
      intro c hcmem
      rw [hrest2] at hcmem
      exact hL c (List.mem_of_mem_drop hcmem)
    match fuel, hf with
    | fuel + 1, hf =>
      rw [parse_regex_cons]
      have hbar : d ≠ chB '|' := fun h => hdL.2.2 (by rw [h]; decide)
      rw [if_neg (by rw [precOf_literal d hdL]; omega)]
      simp only [if_neg hbar]
      have hflen : st.graph.length = j + 1 := hinv.1
      have helemEq := elem_literal fuel d rest2 st hdL hrest2L (by
        simp only [List.length_cons] at hf; omega)
      rw [helemEq]
      simp only []
      have hinnerEq := inner_literal fuel rest2
        ⟨st.graph.length, [(st.graph.length, false)]⟩ d
        { st with graph := st.graph ++ [{ character_code := d }] }
        (precOf_literal d hdL) hrest2L (by omega)
      rw [hinnerEq]
      simp only [if_neg hbar]
      -- the recursive call on the patched graph
      have hentry : (st.graph ++ [{ character_code := d }])[j]? =
          some { character_code := L.getD (j - 1) 0, primary_transition := none } := by
        rw [List.getElem?_append_left (by omega)]
        have := hinv.2.2 (j - 1) (by omega)
        have hj' : j - 1 + 1 = j := by omega
        rw [hj'] at this
        rw [this]
        rw [if_neg (by omega)]
      have hinv' : ChainInv L (j + 1)
          (patchAll (st.graph ++ [{ character_code := d }]) [(j, false)]
            st.graph.length) := by
        simp only [patchAll, List.foldl_cons, List.foldl_nil, patchSlot]
        rw [hentry]
        simp only [Bool.false_eq_true, if_false]
        refine ⟨by simp [hflen], ?_, ?_⟩
        · rw [List.getElem?_set_ne (by omega)]
          rw [List.getElem?_append_left (by omega)]
          exact hinv.2.1
        · intro i hi
          by_cases hc1 : i + 1 < j
          · rw [List.getElem?_set_ne (by omega)]
            rw [List.getElem?_append_left (by omega)]
            have := hinv.2.2 i (by omega)
            rw [this, if_pos hc1, if_pos (by omega)]
          · by_cases hc2 : i + 1 = j
            · rw [hc2, List.getElem?_set_self (by
                simp only [List.length_append, List.length_cons, List.length_nil]
                omega)]
              have hgd : L.getD (j - 1) 0 = L.getD i 0 := by
                rw [show j - 1 = i by omega]
              have hlen2 : st.graph.length = i + 2 := by omega
              rw [hgd, hlen2, if_pos (by omega)]
            · have hc3 : i + 1 = j + 1 := by omega
              rw [List.getElem?_set_ne (by omega), hc3,
                show j + 1 = st.graph.length from hflen.symm,
                List.getElem?_concat_length]
              rw [if_neg (by omega)]
              have hdi : d = L.getD i 0 := by
                rw [hd, show i = j by omega]
                exact (List.getD_eq_getElem L 0 hj).symm
              rw [hdi]
      obtain ⟨st', hrec, hinv''⟩ := ih fuel (j + 1)
        { graph := patchAll (st.graph ++ [{ character_code := d }]) [(j, false)]
            st.graph.length,
          next_capture_group_id :=
            ({ st with graph := st.graph ++ [{ character_code := d }] } : ParserSt).next_capture_group_id }
        hrest2 (by omega) (by omega) hinv'
        (by simp only [List.length_cons] at hf; omega)
      rw [hflen] at hrec ⊢
      exact ⟨st', hrec, hinv''⟩

theorem chain_patch (L : List Int) (g : Graph) (hne : L ≠ [])
    (hinv : ChainInv L L.length g) :
    ChainDone L (patchAll g [(L.length, false)] 0) := by
  have hn1 : 1 ≤ L.length := by
    cases L with
    | nil => exact absurd rfl hne
    | cons x xs => simp
  have hentry : g[L.length]? =
      some { character_code := L.getD (L.length - 1) 0, primary_transition := none } := by
    have := hinv.2.2 (L.length - 1) (by omega)
    have hj' : L.length - 1 + 1 = L.length := by omega
    rw [hj'] at this
    rw [this, if_neg (by omega)]
  simp only [patchAll, List.foldl_cons, List.foldl_nil, patchSlot]
  rw [hentry]
  simp only [Bool.false_eq_true, if_false]
  refine ⟨by simp [hinv.1], ?_, ?_⟩
  · rw [List.getElem?_set_ne (by omega)]
    exact hinv.2.1
  · intro i hi
    by_cases hc : i + 1 = L.length
    · rw [hc, List.getElem?_set_self (by rw [hinv.1]; omega)]
      have hgd : L.getD (L.length - 1) 0 = L.getD i 0 := by
        rw [show L.length - 1 = i by omega]
      rw [hgd]
      simp
    · rw [List.getElem?_set_ne (by omega)]
      have := hinv.2.2 i (by omega)
      rw [this, if_pos (by omega), if_neg hc]

theorem chain_compile (L : List Int) (hne : L ≠ []) (hL : ∀ c ∈ L, LiteralByte c) :
    ∃ g, compile_regex_to_nfa L = .ok (g, 1) ∧ ChainDone L g := by
  match L, hne with
  | c :: rest, _ =>
    have hc : LiteralByte c := hL c (by simp)
    have hrestL : ∀ d ∈ rest, LiteralByte d := fun d hd => hL d (by simp [hd])
    have helemEq : parse_primary_element (compileFuel (c :: rest)) (c :: rest)
        ⟨[{ character_code := OPCODE_MATCHED }], 1⟩ =
        .ok (⟨1, [(1, false)]⟩, rest,
          ⟨[{ character_code := OPCODE_MATCHED }, { character_code := c }], 1⟩) :=
      (elem_literal (compileFuel (c :: rest)) c rest
        ⟨[{ character_code := OPCODE_MATCHED }], 1⟩ hc hrestL
        (by simp [compileFuel])).trans rfl
    have hinv1 : ChainInv (c :: rest) 1
        [{ character_code := OPCODE_MATCHED }, { character_code := c }] := by
      refine ⟨by simp, by simp, ?_⟩
      intro i hi
      have hi0 : i = 0 := by omega
      subst hi0
      simp
    obtain ⟨st', hrec, hinv'⟩ := chain_regex (c :: rest) hL rest
      (compileFuel (c :: rest)) 1
      ⟨[{ character_code := OPCODE_MATCHED }, { character_code := c }], 1⟩
      (by simp) (by omega) (by simp) hinv1
      (by simp only [compileFuel, List.length_cons]; omega)
    rw [compile_regex_to_nfa]
    rw [if_neg (by simp)]
    simp only [helemEq]
    simp only [hrec]
    exact ⟨patchAll st'.graph [((c :: rest).length, false)] 0, rfl,
      chain_patch (c :: rest) st'.graph (by simp) hinv'⟩

theorem chain_entry (L : List Int) (g : Graph) (hg : ChainDone L g) (k : Nat)
    (hk1 : 1 ≤ k) (hkn : k ≤ L.length) :
    g[k]? =
      some { character_code := L.getD (k - 1) 0,
             primary_transition := some (if k = L.length then 0 else k + 1) } := by
  have h := hg.2.2 (k - 1) (by omega)
  have hj' : k - 1 + 1 = k := by omega
  rw [hj'] at h
  rw [show k - 1 + 2 = k + 1 by omega] at h
  exact h

theorem chain_lit (L : List Int) (hL : ∀ c ∈ L, LiteralByte c) (k : Nat)
    (hk1 : 1 ≤ k) (hkn : k ≤ L.length) : LiteralByte (L.getD (k - 1) 0) := by
  have hi : k - 1 < L.length := by omega
  rw [List.getD_eq_getElem L 0 hi]
  exact hL _ (L.getElem_mem hi)

theorem chain_closureInto (L : List Int) (g : Graph) (hg : ChainDone L g)
    (hL : ∀ c ∈ L, LiteralByte c) (s : Nat) (hs : s < g.length)
    (cap : CaptureGroupInfo) (acc : ActiveStateList) :
    closureInto g (some s) cap acc = acc ++ [⟨s, cap⟩] := by
  obtain ⟨st, hst, hsplit, hccap⟩ : ∃ st, g[s]? = some st ∧
      st.character_code ≠ OPCODE_SPLIT ∧ closureCap st cap = cap := by
    cases s with
    | zero =>
      refine ⟨_, hg.2.1, by decide, ?_⟩
      simp [closureCap]
    | succ i =>
      have hi : i < L.length := by
        have h1 := hg.1
        omega
      refine ⟨_, chain_entry L g hg (i + 1) (by omega) (by omega), ?_, ?_⟩
      · have hlit := chain_lit L hL (i + 1) (by omega) (by omega)
        simp only []
        have := hlit.2.1
        simp only [OPCODE_SPLIT]
        omega
      · simp [closureCap]
  have hadd : add_state_with_epsilon_closure g (g.length + 1) (some s) cap acc [] =
      some (acc ++ [⟨s, cap⟩], [s]) := by
    rw [add_state_with_epsilon_closure]
    rw [if_neg (List.not_mem_nil s)]
    simp only [hst]
    rw [if_neg hsplit]
    rw [hccap]
  simp only [closureInto, hadd]

theorem chain_init (L : List Int) (g : Graph) (hg : ChainDone L g)
    (hL : ∀ c ∈ L, LiteralByte c) (hne : L ≠ []) :
    initialize_active_states g 1 = [⟨1, {}⟩] := by
  have h1 : 1 < g.length := by
    rw [hg.1]
    have := List.length_pos.mpr hne
    omega
  rw [initialize_active_states, chain_closureInto L g hg hL 1 h1 {} []]
  rfl

theorem appendToActive_empty (c : Int) : appendToActive {} c = {} := rfl

theorem chain_step (L : List Int) (g : Graph) (hg : ChainDone L g)
    (hL : ∀ c ∈ L, LiteralByte c) (k : Nat) (hk1 : 1 ≤ k) (hkn : k ≤ L.length)
    (c : Int) :
    process_character_step g [⟨k, {}⟩] c =
      if L.getD (k - 1) 0 = c then
        [⟨if k = L.length then 0 else k + 1, {}⟩]
      else [] := by
  simp only [process_character_step, List.foldl_cons, List.foldl_nil]
  have hk := chain_entry L g hg k hk1 hkn
  have hlit := chain_lit L hL k hk1 hkn
  have hb := hlit.2.1
  simp only [step_one, hk]
  rw [if_neg (by simp only [OPCODE_MATCH_ANY]; omega)]
  rw [if_neg (by simp only [OPCODE_MATCH_DIGIT]; omega)]
  rw [if_neg (by simp only [OPCODE_MATCH_WORD]; omega)]
  rw [if_neg (by simp only [OPCODE_MATCH_CHOICE]; omega)]
  rw [if_neg (by simp only [OPCODE_MATCH_ANTI_CHOICE]; omega)]
  by_cases hc : L.getD (k - 1) 0 = c
  · rw [if_pos hc, if_pos hc]
    rw [appendToActive_empty]
    have hsucc : (if k = L.length then 0 else k + 1) < g.length := by
      rw [hg.1]
      split <;> omega
    rw [chain_closureInto L g hg hL _ hsucc {} []]
    rfl
  · rw [if_neg hc, if_neg hc]
    rw [if_neg (by simp only [OPCODE_BACKREF_START]; omega)]

theorem chain_not_matching (L : List Int) (g : Graph) (hg : ChainDone L g)
    (hL : ∀ c ∈ L, LiteralByte c) (k : Nat) (hk1 : 1 ≤ k) (hkn : k ≤ L.length) :
    has_matching_state g [⟨k, {}⟩] = false := by
  have hb := (chain_lit L hL k hk1 hkn).2.1
  simp only [has_matching_state, List.any_cons, List.any_nil,
    chain_entry L g hg k hk1 hkn, Bool.or_false, beq_eq_false_iff_ne]
  simp only [OPCODE_MATCHED]
  omega

theorem chain_accept_matching (L : List Int) (g : Graph) (hg : ChainDone L g)
    (cap : CaptureGroupInfo) :
    has_matching_state g [⟨0, cap⟩] = true := by
  simp only [has_matching_state, List.any_cons, List.any_nil]
  rw [hg.2.1]
  simp

theorem chain_eos (L : List Int) (g : Graph) (hg : ChainDone L g)
    (hL : ∀ c ∈ L, LiteralByte c) (k : Nat) (hk1 : 1 ≤ k) (hkn : k ≤ L.length) :
    end_of_string_states g [⟨k, {}⟩] = [⟨k, {}⟩] := by
  have hb := (chain_lit L hL k hk1 hkn).2.1
  simp only [end_of_string_states, List.foldl_cons, List.foldl_nil,
    chain_entry L g hg k hk1 hkn]
  rw [if_neg (by simp only [OPCODE_MATCH_END]; omega)]
  rfl

theorem take_extend (T L : List Int) (m k : Nat) (c : Int) (rest : List Int)
    (hk1 : 1 ≤ k) (hkn : k ≤ L.length)
    (hpre : (T.drop m).take (k - 1) = L.take (k - 1))
    (hdrop : T.drop (m + (k - 1)) = c :: rest)
    (hc : L.getD (k - 1) 0 = c) :
    (T.drop m).take k = L.take k := by
  have hk' : k = (k - 1) + 1 := by omega
  rw [hk', List.take_add, List.take_add]
  have hdd : (T.drop m).drop (k - 1) = T.drop (m + (k - 1)) :=
    List.drop_drop (k - 1) m T
  have hLd : L.drop (k - 1) = L[k - 1] :: L.drop (k - 1 + 1) :=
    List.drop_eq_getElem_cons (by omega)
  have hgc : L[k - 1] = c := by
    rw [← hc, List.getD_eq_getElem L 0 (by omega)]
  rw [hpre, hdd, hdrop, hLd, hgc]
  simp

theorem take_one_head (L : List Int) (hn1 : 1 ≤ L.length) :
    L.take 1 = [L.getD 0 0] := by
  cases L with
  | nil => simp at hn1
  | cons x xs => simp

theorem chain_matchLoop (L : List Int) (g : Graph) (hg : ChainDone L g)
    (hL : ∀ c ∈ L, LiteralByte c) (hne : L ≠ []) (T : List Int) :
    ∀ (rest : List Int) (i mstart : Nat) (cur : ActiveStateList) (s e : Nat),
      rest = T.drop i →
      (cur = [] ∨
        ∃ k, cur = [⟨k, {}⟩] ∧ 1 ≤ k ∧ k ≤ L.length ∧ i = mstart + (k - 1) ∧
          (T.drop mstart).take (k - 1) = L.take (k - 1)) →
      matchLoop g 1 false rest i cur mstart = ⟨true, s, e⟩ →
      e = s + L.length ∧ (T.drop s).take L.length = L := by
  have hn1 : 1 ≤ L.length := List.length_pos.mpr hne
  intro rest
  induction rest with
  | nil =>
    intro i mstart cur s e hrest hinv h
    rcases hinv with hc0 | ⟨k, hcur, hk1, hkn, hi, hpre⟩
    · subst hc0
      simp [matchLoop, end_of_string_states, has_matching_state] at h
    · subst hcur
      rw [matchLoop, chain_eos L g hg hL k hk1 hkn,
        chain_not_matching L g hg hL k hk1 hkn] at h
      simp at h
  | cons c rest ih =>
    intro i mstart cur s e hrest hinv h
    have hrest1 : rest = T.drop (i + 1) := by
      have hdd : (T.drop i).drop 1 = T.drop (i + 1) := by
        rw [List.drop_drop 1 i T, Nat.add_comm]
      rw [← hrest] at hdd
      simpa using hdd
    rcases hinv with hc0 | ⟨k, hcur, hk1, hkn, hi, hpre⟩
    · -- empty current set: seed at i and step
      subst hc0
      rw [matchLoop] at h
      simp only [List.isEmpty_nil, Bool.not_false, Bool.and_true, if_true,
        chain_init L g hg hL hne, List.isEmpty_cons, if_false,
        Bool.false_eq_true] at h
      rw [chain_step L g hg hL 1 (by omega) hn1 c,
        show (1 : Nat) - 1 = 0 from rfl] at h
      by_cases hcc : L.getD 0 0 = c
      · rw [if_pos hcc] at h
        by_cases hlen1 : 1 = L.length
        · rw [if_pos hlen1] at h
          rw [chain_accept_matching L g hg] at h
          rw [if_pos rfl] at h
          injection h with h1 h2 h3
          obtain ⟨a, hLa⟩ := List.length_eq_one.mp hlen1.symm
          have hca : a = c := by
            rw [hLa] at hcc
            simpa using hcc
          refine ⟨by omega, ?_⟩
          rw [← h2, ← hrest, hLa, hca]
          simp
        · rw [if_neg hlen1] at h
          rw [chain_not_matching L g hg hL 2 (by omega) (by omega)] at h
          simp only [Bool.false_eq_true, if_false, List.isEmpty_cons] at h
          refine ih (i + 1) i _ s e hrest1 (Or.inr ⟨2, rfl, by omega, by omega,
            by omega, ?_⟩) h
          rw [show (2 : Nat) - 1 = 1 from rfl, ← hrest, take_one_head L hn1, hcc]
          simp
      · rw [if_neg hcc] at h
        simp only [show has_matching_state g [] = false from rfl,
          Bool.false_eq_true, if_false, List.isEmpty_nil, Bool.and_true,
          if_true] at h
        exact ih (i + 1) i [] s e hrest1 (Or.inl rfl) h
    · -- a live chain configuration at k
      subst hcur
      rw [matchLoop] at h
      simp only [List.isEmpty_cons, Bool.not_false, Bool.and_true,
        Bool.false_eq_true, if_false] at h
      rw [chain_step L g hg hL k hk1 hkn c] at h
      by_cases hcc : L.getD (k - 1) 0 = c
      · rw [if_pos hcc] at h
        by_cases hlenk : k = L.length
        · rw [if_pos hlenk] at h
          rw [chain_accept_matching L g hg] at h
          rw [if_pos rfl] at h
          injection h with h1 h2 h3
          have htake : (T.drop mstart).take k = L.take k :=
            take_extend T L mstart k c rest hk1 hkn hpre
              (by rw [← hi, ← hrest]) hcc
          refine ⟨by omega, ?_⟩
          rw [← h2, ← hlenk, htake, hlenk, List.take_length]
        · rw [if_neg hlenk] at h
          rw [chain_not_matching L g hg hL (k + 1) (by omega) (by omega)] at h
          simp only [Bool.false_eq_true, if_false, List.isEmpty_cons] at h
          refine ih (i + 1) mstart _ s e hrest1 (Or.inr ⟨k + 1, rfl, by omega,
            by omega, by omega, ?_⟩) h
          have htake : (T.drop mstart).take k = L.take k :=
            take_extend T L mstart k c rest hk1 hkn hpre
              (by rw [← hi, ← hrest]) hcc
          simpa using htake
      · rw [if_neg hcc] at h
        simp only [show has_matching_state g [] = false from rfl,
          Bool.false_eq_true, if_false, List.isEmpty_nil, Bool.and_true,
          if_true, chain_init L g hg hL hne, List.isEmpty_cons] at h
        rw [chain_step L g hg hL 1 (by omega) hn1 c,
          show (1 : Nat) - 1 = 0 from rfl] at h
        by_cases hcc0 : L.getD 0 0 = c
        · rw [if_pos hcc0] at h
          by_cases hlen1 : 1 = L.length
          · rw [if_pos hlen1] at h
            rw [chain_accept_matching L g hg] at h
            rw [if_pos rfl] at h
            injection h with h1 h2 h3
            obtain ⟨a, hLa⟩ := List.length_eq_one.mp hlen1.symm
            have hca : a = c := by
              rw [hLa] at hcc0
              simpa using hcc0
            refine ⟨by omega, ?_⟩
            rw [← h2, ← hrest, hLa, hca]
            simp
          · rw [if_neg hlen1] at h
            rw [chain_not_matching L g hg hL 2 (by omega) (by omega)] at h
            simp only [Bool.false_eq_true, if_false, List.isEmpty_cons] at h
            refine ih (i + 1) i _ s e hrest1 (Or.inr ⟨2, rfl, by omega, by omega,
              by omega, ?_⟩) h
            rw [show (2 : Nat) - 1 = 1 from rfl, ← hrest, take_one_head L hn1,
              hcc0]
            simp
        · rw [if_neg hcc0] at h
          simp only [show has_matching_state g [] = false from rfl,
            Bool.false_eq_true, if_false] at h
          exact ih (i + 1) i [] s e hrest1 (Or.inl rfl) h

/-- C1 (amended): for a nonempty all-literal pattern `L`, matching is sound —
whenever `match_text_with_positions` on the compiled NFA reports success with
span `(s, e)`, then `e = s + |L|`, the text bytes from `s` to `e` are exactly
`L`, so `L` occurs as a substring of `T` within bounds.  The converse of the
original claim is false (`C1_counterexample`): the restart-on-empty policy
skips overlapping candidate positions, so a text containing `L` can fail to
match, and a reported span need not be the leftmost occurrence. -/
theorem C1_amended_literal_soundness (L T : List Int)
    (hL : ∀ c ∈ L, LiteralByte c) (hne : L ≠ []) (g : Graph)
    (start : Nat) (s e : Nat)
    (hc : compile_regex_to_nfa L = .ok (g, start))
    (hm : match_text_with_positions g start T = ⟨true, s, e⟩) :
    e = s + L.length ∧ (T.drop s).take L.length = L ∧
    L.IsInfix T ∧ s + L.length ≤ T.length := by
  have hn1 : 1 ≤ L.length := List.length_pos.mpr hne
  obtain ⟨g', hc', hd⟩ := chain_compile L hne hL
  rw [hc'] at hc
  injection hc with hpair
  injection hpair with hg1 hst
  subst hst
  rw [← hg1] at hm
  rw [match_text_with_positions] at hm
  have hanch : (NFAState.character_code
      { character_code := L.getD 0 0,
        primary_transition := some (if 1 = L.length then 0 else 1 + 1) } ==
      OPCODE_MATCH_START) = false := by
    have hb := (chain_lit L hL 1 (by omega) hn1).2.1
    simp only [show (1 : Nat) - 1 = 0 from rfl] at hb
    simp only [NFAState.character_code]
    rw [beq_eq_false_iff_ne]
    simp only [OPCODE_MATCH_START]
    omega
  simp only [chain_entry L g' hd 1 (by omega) hn1,
    show (1 : Nat) - 1 = 0 from rfl, hanch, Bool.false_eq_true, if_false,
    chain_init L g' hd hL hne] at hm
  have hconc := chain_matchLoop L g' hd hL hne T T 0 0 [⟨1, {}⟩] s e
    (List.drop_zero T).symm
    (Or.inr ⟨1, rfl, le_rfl, hn1, by omega, by simp⟩) hm
  obtain ⟨he, htake⟩ := hconc
  have hinf : L.IsInfix T := by
    rw [← htake]
    exact ((List.take_prefix _ _).isInfix).trans (List.drop_suffix _ _).isInfix
  have hlenb : s + L.length ≤ T.length := by
    have hlt := congrArg List.length htake
    simp only [List.length_take, List.length_drop] at hlt
    omega
  exact ⟨he, htake, hinf, hlenb⟩

/-- Witness for C1 (amended) at the literal pattern `ab` and text `xab`:
compilation and matching evaluate concretely, the span is `(1, 3)`, and the
theorem's conclusions hold there. -/
theorem C1_witness :
    3 = 1 + (strBytes "ab").length ∧
    ((strBytes "xab").drop 1).take (strBytes "ab").length = strBytes "ab" ∧
    (strBytes "ab").IsInfix (strBytes "xab") ∧
    1 + (strBytes "ab").length ≤ (strBytes "xab").length :=
  C1_amended_literal_soundness (strBytes "ab") (strBytes "xab") (by decide)
    (by decide)
    [{ character_code := OPCODE_MATCHED },
     { character_code := 97, primary_transition := some 2 },
     { character_code := 98, primary_transition := some 0 }] 1 1 3 rfl rfl

end GrepSpec
